import Mathlib

/-!
Verification of the reliability core of `maicro_monitors` against its
natural-language specification.

The development shallowly embeds two scripts:

* `scheduled_processes/flush_hyperliquid_buffers.py` — the dual-target
  buffer flush engine (`flush_prefix`, `_common_insert_columns`);
* `scheduled_processes/pull_data_downward_from_cloud.py` — the
  cloud-to-local incremental sync engine (`sync_database`,
  `find_date_column`, `sync_table_incremental`,
  `convert_cloud_create_statement`).

External effects (ClickHouse calls, parquet reads, `os.remove`) are
modelled by environment records carrying the outcome of each call, and
each embedded function returns an explicit event trace so that
"this insert was attempted / succeeded" is a checkable statement.
Python exception flow is modelled by the same control flow the
`try`/`except` blocks of the source produce.
-/

namespace MaicroMonitors

/-! ## Embedding of `flush_hyperliquid_buffers.py` -/

/-- The `PREFIX_TABLES` constant: buffer-file category and its destination
table, as listed in the source. -/
def PREFIX_TABLES : List (String × String) :=
  [("account", "maicro_monitors.account_snapshots"),
   ("positions", "maicro_monitors.positions_snapshots"),
   ("trades", "maicro_monitors.trades"),
   ("orders", "maicro_monitors.orders"),
   ("funding", "maicro_monitors.funding_payments"),
   ("ledger", "maicro_monitors.ledger_updates"),
   ("candles", "maicro_monitors.candles"),
   ("meta", "maicro_monitors.hl_meta")]

/-- Categories whose target tables use `ReplacingMergeTree` and get an
`OPTIMIZE TABLE ... FINAL` after a successful insert
(`REPLACING_MERGE_TREE_PREFIXES` in the source). -/
def REPLACING_MERGE_TREE_CATEGORIES : List String :=
  ["trades", "orders", "funding", "ledger", "candles"]

/-- A deserialized batch (`pandas.DataFrame`): its column names and its
row count.  Row contents are irrelevant to every claim, only the column
set and emptiness are inspected by the source. -/
structure DF where
  cols : List String
  nrows : Nat
deriving DecidableEq, Repr

/-- Model of `pd.concat(dfs, ignore_index=True)`: columns are the union of the
input column lists in order of first appearance; the row count is the
sum. -/
def concatDF (dfs : List DF) : DF :=
  ⟨dfs.foldl (fun acc d => d.cols.foldl
      (fun a c => if a.contains c then a else a ++ [c]) acc) [],
   (dfs.map DF.nrows).sum⟩

/-- Model of `df.empty` in pandas: true when either axis has length zero. -/
def dfIsEmpty (d : DF) : Bool := d.nrows == 0 || d.cols.isEmpty

/-- The function `_common_insert_columns`: the intersection of
(local table columns) ∩ (remote table columns) ∩ (df columns),
preserving local table column order —
`[c for c in local_cols if c in remote_cols and c in df_cols]`. -/
def common_insert_columns (localCols remoteCols dfCols : List String) :
    List String :=
  localCols.filter (fun c => remoteCols.contains c && dfCols.contains c)

/-- Environment of one `flush_prefix` call: the sorted buffer directory
listing for the category (file name together with the outcome of
`pd.read_parquet` — `none` models a read that raises), the two
`DESCRIBE TABLE` results and the outcome of each destination call. -/
structure FlushEnv where
  category : String
  files : List (String × Option DF)
  localCols : List String
  remoteCols : List String
  localInsertOk : Bool
  remoteInsertOk : Bool
  localOptimizeOk : Bool
  remoteOptimizeOk : Bool
  removeOk : String → Bool

/-- Observable events of one flush call, in program order. -/
inductive Ev where
  | insertLocal (ok : Bool)
  | insertRemote (ok : Bool)
  | optimizeLocal (ok : Bool)
  | optimizeRemote (ok : Bool)
  | removeFile (name : String) (ok : Bool)
deriving DecidableEq, Repr

/-- Result of one flush call: its event trace and the buffer files still
on disk when it returns. -/
structure FlushResult where
  events : List Ev
  remaining : List (String × Option DF)
deriving DecidableEq, Repr

/-- The files whose `pd.read_parquet` succeeded (`valid_files`). -/
def validFiles (files : List (String × Option DF)) :
    List (String × Option DF) :=
  files.filter (fun f => f.2.isSome)

/-- The successfully deserialized dataframes (`dfs`). -/
def loadedDfs (files : List (String × Option DF)) : List DF :=
  files.filterMap (fun f => f.2)

/-- The concatenated dataframe of one flush (`df = pd.concat(dfs)`). -/
def flushDF (files : List (String × Option DF)) : DF :=
  concatDF (loadedDfs files)

/-- The reconciled column set of one flush
(`cols = _common_insert_columns(table, local, remote, df)`). -/
def flushCols (env : FlushEnv) : List String :=
  common_insert_columns env.localCols env.remoteCols (flushDF env.files).cols

/-- The `OPTIMIZE TABLE ... FINAL` block: run only for replacing-merge-tree
categories; the local call comes first and a raise skips the remote call;
both failures are caught by the inner `except` and only logged. -/
def optimizeEvents (env : FlushEnv) : List Ev :=
  if REPLACING_MERGE_TREE_CATEGORIES.contains env.category then
    if env.localOptimizeOk then
      [Ev.optimizeLocal true, Ev.optimizeRemote env.remoteOptimizeOk]
    else
      [Ev.optimizeLocal false]
  else []

/-- The deletion loop over `valid_files`; an `OSError` from `os.remove`
is caught per file. -/
def removalEvents (env : FlushEnv) : List Ev :=
  (validFiles env.files).map (fun f => Ev.removeFile f.1 (env.removeOk f.1))

/-- Files surviving the deletion loop: a file stays when it was not
successfully read or when its `os.remove` failed. -/
def remainingAfterDelete (env : FlushEnv) : List (String × Option DF) :=
  env.files.filter (fun f => !(f.2.isSome && env.removeOk f.1))

/-- The function `flush_prefix(prefix, table, local_client, remote_client)`:

1. no buffered files → return;
2. read every file, skipping ones that raise; none valid → return;
3. concatenated df empty → return;
4. reconciled column set empty → log and return (nothing inserted);
5. one `try`: local insert, then remote insert, then (for
   replacing-merge-tree categories) the optimize block; any insert raise
   is caught by the outer `except`, which returns with the files
   retained;
6. only after the `try` completes are the `valid_files` deleted. -/
def flush_prefix (env : FlushEnv) : FlushResult :=
  if env.files.isEmpty then ⟨[], env.files⟩
  else if (loadedDfs env.files).isEmpty then ⟨[], env.files⟩
  else if dfIsEmpty (flushDF env.files) then ⟨[], env.files⟩
  else if (flushCols env).isEmpty then ⟨[], env.files⟩
  else if env.localInsertOk then
    if env.remoteInsertOk then
      ⟨[Ev.insertLocal true, Ev.insertRemote true] ++ optimizeEvents env
         ++ removalEvents env,
       remainingAfterDelete env⟩
    else ⟨[Ev.insertLocal true, Ev.insertRemote false], env.files⟩
  else ⟨[Ev.insertLocal false], env.files⟩

/-- All four guards up to the insert stage hold: there are buffered
files, at least one deserializes, the concatenated df is non-empty and
the reconciled column set is non-empty. -/
def insertStage (env : FlushEnv) : Bool :=
  !env.files.isEmpty && !(loadedDfs env.files).isEmpty
    && !dfIsEmpty (flushDF env.files) && !(flushCols env).isEmpty

/-! ## Embedding of `pull_data_downward_from_cloud.py` -/

/-- The `DATABASES_TO_SYNC` constant. -/
def DATABASES_TO_SYNC : List String :=
  ["hyperliquid", "maicro_logs", "binance", "maicro_monitors"]

/-- The `CURSOR_OVERRIDES` dictionary: `(database, table) -> column`. -/
def CURSOR_OVERRIDES : List ((String × String) × String) :=
  [(("maicro_monitors", "account_snapshots"), "timestamp"),
   (("maicro_monitors", "positions_snapshots"), "timestamp"),
   (("maicro_monitors", "trades"), "time"),
   (("maicro_monitors", "orders"), "timestamp"),
   (("maicro_monitors", "funding_payments"), "time"),
   (("maicro_monitors", "ledger_updates"), "time"),
   (("maicro_monitors", "candles"), "updated_at"),
   (("maicro_monitors", "hl_meta"), "updated_at"),
   (("maicro_monitors", "tracking_error"), "timestamp"),
   (("binance", "bn_funding_rates"), "fundingTime"),
   (("binance", "bn_margin_interest_rates"), "timestamp"),
   (("binance", "bn_option_klines"), "timestamp"),
   (("binance", "bn_option_symbols_active"), "expiryDate"),
   (("binance", "bn_option_symbols_exercised"), "expiryDate"),
   (("binance", "bn_perp_klines"), "timestamp"),
   (("binance", "bn_perp_symbols"), "onboard_date"),
   (("binance", "bn_premium"), "timestamp"),
   (("binance", "bn_spot_klines"), "timestamp"),
   (("binance", "cg_coin_data"), "last_updated"),
   (("hyperliquid", "api_data"), "inserted_at"),
   (("hyperliquid", "api_data_v2"), "inserted_at"),
   (("hyperliquid", "asset_ctx"), "time"),
   (("maicro_logs", "binance_update"), "timestamp"),
   (("maicro_logs", "daily_pnl"), "updated_at"),
   (("maicro_logs", "feature_store"), "inserted_at"),
   (("maicro_logs", "hl_meta"), "updated_at"),
   (("maicro_logs", "hourly_prices"), "updated_at"),
   (("maicro_logs", "hyperliquid_account_value_snapshots"), "inserted_at"),
   (("maicro_logs", "hyperliquid_all_events"), "inserted_at"),
   (("maicro_logs", "hyperliquid_daily_value"), "inserted_at"),
   (("maicro_logs", "hyperliquid_hourly_value"), "inserted_at"),
   (("maicro_logs", "hyperliquid_position_snapshots"), "inserted_at"),
   (("maicro_logs", "live_account"), "ts"),
   (("maicro_logs", "live_positions"), "ts"),
   (("maicro_logs", "live_trades"), "ts"),
   (("maicro_logs", "position_mtm"), "updated_at"),
   (("maicro_logs", "positions_jianan"), "inserted_at"),
   (("maicro_logs", "positions_jianan_mistake_ignore"), "inserted_at"),
   (("maicro_logs", "positions_jianan_v5"), "inserted_at"),
   (("maicro_logs", "positions_jianan_v6"), "inserted_at"),
   (("maicro_logs", "trade_pnl"), "updated_at")]

/-- Lookup of `CURSOR_OVERRIDES.get((database, table))`. -/
def lookupOverride (db t : String) : Option String :=
  CURSOR_OVERRIDES.lookup (db, t)

/-- The `SKIP_TABLES` constant (deprecated tables never down-synced). -/
def SKIP_TABLES : List (String × String) :=
  [("maicro_logs", "positions_jianan"),
   ("maicro_logs", "positions_jianan_mistake_ignore"),
   ("maicro_logs", "positions_jianan_v5")]

/-- Whether `pat` occurs as a contiguous substring of `t` (character lists). -/
def occurs (pat : List Char) : List Char → Bool
  | [] => pat.isPrefixOf ([] : List Char)
  | c :: cs => pat.isPrefixOf (c :: cs) || occurs pat cs

/-- Substring containment, the model of SQL `x LIKE '%pat%'`
(case-sensitive, as ClickHouse `LIKE` is). -/
def strContains (s pat : String) : Bool := occurs pat.data s.data

/-- The name-rank `CASE` expression of `find_date_column`:
names containing `timestamp` rank 1, then `time`, then `date`, else 4. -/
def cursorNameRank (name : String) : Nat :=
  if strContains name "timestamp" then 1
  else if strContains name "time" then 2
  else if strContains name "date" then 3
  else 4

/-- The type filter of `find_date_column`:
`type LIKE '%Date%' OR type LIKE '%Time%'`. -/
def isDateTimeCol (ty : String) : Bool :=
  strContains ty "Date" || strContains ty "Time"

/-- The full `ORDER BY` key of `find_date_column`: the `CASE` rank, then
the column name ascending. -/
def cursorKey (c : String × String) : Nat × String := (cursorNameRank c.1, c.1)

/-- Strict lexicographic comparison of character lists by code point,
the model of ClickHouse's bytewise `ORDER BY` on identifier names
(identical to byte order on the ASCII names involved). -/
def strLtB : List Char → List Char → Bool
  | [], [] => false
  | [], _ :: _ => true
  | _ :: _, [] => false
  | a :: as, b :: bs =>
    if a.toNat < b.toNat then true
    else if b.toNat < a.toNat then false
    else strLtB as bs

/-- Strict lexicographic comparison on the `ORDER BY` key. -/
def keyLtB (a b : Nat × String) : Bool :=
  a.1 < b.1 || (a.1 == b.1 && strLtB a.2.data b.2.data)

/-- Minimum of a non-empty candidate list under `keyLtB`, the model of
`ORDER BY rank, name LIMIT 1`. -/
def pickMin (c : String × String) (rest : List (String × String)) :
    String × String :=
  rest.foldl (fun best x => if keyLtB (cursorKey x) (cursorKey best) then x
                            else best) c

/-- The function `find_date_column(remote_client, database, table)`: among the source
table's columns whose type contains `Date` or `Time`, the one minimal
under (name rank, name); `None` when the table has no such column.
The column list is the `system.columns` answer carried by the
environment. -/
def find_date_column (cols : List (String × String)) : Option String :=
  match cols.filter (fun c => isDateTimeCol c.2) with
  | [] => none
  | c :: rest => some (pickMin c rest).1

/-- Environment of the per-table work inside `sync_database`'s loop:
outcome of the local-existence check, of the initial copy, of
`remote_column_exists` (already `False` on exception in the source), the
remote `system.columns` rows, the outcome of the `max()` query, the
target table's cursor-column values, and the outcome of the incremental
`INSERT ... SELECT`. -/
structure TableEnv where
  existsLocally : Bool
  initialOk : Bool
  remoteHasCol : String → Bool
  columns : List (String × String)
  maxQueryOk : Bool
  localCursorRows : List Nat
  pullOk : Bool

/-- Observable events of one `sync_database` call. -/
inductive SEv where
  | skippedDeprecated (t : String)
  | initialCopy (t : String) (ok : Bool)
  | tableExistsLocally (t : String)
  | cursorChosen (t : String) (c : String)
  | noCursor (t : String)
  | maxQuery (t : String) (res : Option Nat)
  | skipNoLocalMax (t : String)
  | incrementalPull (t : String) (c : String) (bound : Nat) (ok : Bool)
  | tableError (t : String)
  | listTablesError
  | noTables
deriving DecidableEq, Repr

/-- Model of `SELECT max(col) FROM t`: `NULL` (hence `None` through the driver)
when the target table has zero rows, else the maximum value. -/
def listMax (l : List Nat) : Option Nat :=
  l.foldl (fun acc x => match acc with
                        | none => some x
                        | some m => some (max m x)) none

/-- The function `sync_table_incremental`: read the local watermark via
`get_local_max_date` (which returns `None` when the `max()` query raises
or the table is empty); without a watermark, skip; otherwise issue the
filtered `INSERT ... SELECT ... WHERE col > watermark`, whose failure is
caught and logged.  The date/datetime string formatting of the bound
only affects the SQL text rendering and is not modelled. -/
def sync_table_incremental (te : TableEnv) (t dcol : String) : List SEv :=
  match (if te.maxQueryOk then listMax te.localCursorRows else none) with
  | none => [SEv.maxQuery t none, SEv.skipNoLocalMax t]
  | some m => [SEv.maxQuery t (some m),
               SEv.incrementalPull t dcol m te.pullOk]

/-- The cursor-column resolution inside `sync_database`'s loop: the
override is used only when `remote_column_exists` confirms it, otherwise
`find_date_column` is consulted. -/
def resolveCursor (db t : String) (te : TableEnv) : Option String :=
  match lookupOverride db t with
  | some o => if te.remoteHasCol o then some o else find_date_column te.columns
  | none => find_date_column te.columns

/-- The body of the per-table `try` block of `sync_database`: bootstrap
when missing locally (a failed initial copy re-raises), then resolve the
cursor column and run the incremental sync or skip.  The second
component is true when the body raised (to be caught by the per-table
`except`). -/
def tableBody (db t : String) (te : TableEnv) : List SEv × Bool :=
  if !te.existsLocally && !te.initialOk then
    ([SEv.initialCopy t false], true)
  else
    let step1 := if te.existsLocally then [SEv.tableExistsLocally t]
                 else [SEv.initialCopy t true]
    match resolveCursor db t te with
    | some c => (step1 ++ [SEv.cursorChosen t c]
                   ++ sync_table_incremental te t c, false)
    | none => (step1 ++ [SEv.noCursor t], false)

/-- One iteration of `sync_database`'s table loop: the deprecated-table
skip, then the `try` body with its per-table `except`. -/
def oneTableOutcome (db : String) (te : TableEnv) (p : String × String) :
    List SEv :=
  if SKIP_TABLES.contains (db, p.1) then [SEv.skippedDeprecated p.1]
  else
    let r := tableBody db p.1 te
    if r.2 then r.1 ++ [SEv.tableError p.1] else r.1

/-- Environment of one `sync_database` call: outcome of
`create_database_if_not_exists` (which runs outside every `try`), the
`get_tables_in_database` answer (`none` models a raise, caught by the
dedicated `except` that returns), and the per-table environments. -/
structure SyncEnv where
  createDbOk : Bool
  tables : Option (List (String × String))
  perTable : String → TableEnv

/-- Result of one `sync_database` call; `raised` records an exception
escaping the function (only the ensure-database step can produce one). -/
structure SyncResult where
  events : List SEv
  raised : Bool
deriving DecidableEq, Repr

/-- The function `sync_database(local, remote, database)`:
`create_database_if_not_exists` (unprotected — a raise escapes), then
table enumeration (its failure logs and returns), the empty-list early
return, then the per-table loop in which each table's failure is caught
by the per-table `except`. -/
def sync_database (db : String) (env : SyncEnv) : SyncResult :=
  if !env.createDbOk then ⟨[], true⟩
  else
    match env.tables with
    | none => ⟨[SEv.listTablesError], false⟩
    | some [] => ⟨[SEv.noTables], false⟩
    | some ts => ⟨ts.flatMap (fun p => oneTableOutcome db (env.perTable p.1) p),
                  false⟩

/-! ## Embedding of `convert_cloud_create_statement`

The function is three Python `str.replace` calls followed by one
`re.sub` with the fixed pattern
`ENGINE\s*=\s*(ReplacingMergeTree|MergeTree|AggregatingMergeTree)\s*\([^)]*\)`
and replacement `ENGINE = \1()`.  Both primitives are modelled exactly on
`List Char`: left-to-right non-overlapping scanning, no rescanning of
replaced text.  The regex is deterministic (each `\s*` and `[^)]*` is
followed by a character it can never match), so its matcher is a plain
recursive function.  `\s` is modelled by the six ASCII whitespace
characters. -/

/-- Python `\s` on the ASCII range. -/
def isWS (c : Char) : Bool :=
  c = ' ' || c = '\t' || c = '\n' || c = '\r' || c = '\x0b' || c = '\x0c'

/-- Match a literal: `matchLit p t = some r` iff `t = p ++ r`. -/
def matchLit : List Char → List Char → Option (List Char)
  | [], t => some t
  | _ :: _, [] => none
  | p :: ps, c :: cs => if c = p then matchLit ps cs else none

/-- Greedy `\s*`. -/
def dropWS (t : List Char) : List Char := t.dropWhile isWS

/-- Characters of `ReplacingMergeTree`. -/
def nameR : List Char :=
  ['R', 'e', 'p', 'l', 'a', 'c', 'i', 'n', 'g',
   'M', 'e', 'r', 'g', 'e', 'T', 'r', 'e', 'e']

/-- Characters of `MergeTree`. -/
def nameM : List Char := ['M', 'e', 'r', 'g', 'e', 'T', 'r', 'e', 'e']

/-- Characters of `AggregatingMergeTree`. -/
def nameA : List Char :=
  ['A', 'g', 'g', 'r', 'e', 'g', 'a', 't', 'i', 'n', 'g',
   'M', 'e', 'r', 'g', 'e', 'T', 'r', 'e', 'e']

/-- Characters of `ENGINE`. -/
def litENGINE : List Char := ['E', 'N', 'G', 'I', 'N', 'E']

/-- The alternation `(ReplacingMergeTree|MergeTree|AggregatingMergeTree)`,
tried left to right as the regex engine does. -/
def matchName (t : List Char) : Option (List Char × List Char) :=
  match matchLit nameR t with
  | some r => some (nameR, r)
  | none =>
    match matchLit nameM t with
    | some r => some (nameM, r)
    | none =>
      match matchLit nameA t with
      | some r => some (nameA, r)
      | none => none

/-- Attempt the whole pattern at the head of `t`: on success return the
captured engine name and the text after the match. -/
def matchAt (t : List Char) : Option (List Char × List Char) :=
  match matchLit litENGINE t with
  | none => none
  | some t1 =>
    match matchLit ['='] (dropWS t1) with
    | none => none
    | some t3 =>
      match matchName (dropWS t3) with
      | none => none
      | some (n, t5) =>
        match matchLit ['('] (dropWS t5) with
        | none => none
        | some t7 =>
          match t7.dropWhile (fun c => c ≠ ')') with
          | ')' :: t9 => some (n, t9)
          | _ => none

/-- The substitution text `ENGINE = \1()`. -/
def canon (n : List Char) : List Char :=
  ['E', 'N', 'G', 'I', 'N', 'E', ' ', '=', ' '] ++ n ++ ['(', ')']

/-- Fuel-indexed `re.sub` scan: try the pattern at every position from
the left; on a match emit the substitution and continue after the match
(no rescanning of emitted text). -/
def subF : Nat → List Char → List Char
  | 0, t => t
  | _ + 1, [] => []
  | k + 1, c :: cs =>
    match matchAt (c :: cs) with
    | some (n, rest) => canon n ++ subF k rest
    | none => c :: subF k cs

/-- Model of `re.sub(pattern, r"ENGINE = \1()", t)`; the fuel `t.length` is always
sufficient because a match consumes at least one character. -/
def reSub (t : List Char) : List Char := subF t.length t

/-- Fuel-indexed Python `str.replace`: scan left to right, replace each
non-overlapping occurrence, continue after the replaced occurrence. -/
def repF : Nat → List Char → List Char → List Char → List Char
  | 0, _, _, t => t
  | _ + 1, _, _, [] => []
  | k + 1, pat, rep, c :: cs =>
    if pat.isPrefixOf (c :: cs) then
      rep ++ repF k pat rep ((c :: cs).drop pat.length)
    else c :: repF k pat rep cs

/-- Python `t.replace(pat, rep)` for a non-empty `pat`. -/
def pyReplace (t pat rep : List Char) : List Char := repF t.length pat rep t

/-- Characters of `SharedReplacingMergeTree`. -/
def sharedR : List Char := ['S', 'h', 'a', 'r', 'e', 'd'] ++ nameR

/-- Characters of `SharedMergeTree`. -/
def sharedM : List Char := ['S', 'h', 'a', 'r', 'e', 'd'] ++ nameM

/-- Characters of `SharedAggregatingMergeTree`. -/
def sharedA : List Char := ['S', 'h', 'a', 'r', 'e', 'd'] ++ nameA

/-- The function `convert_cloud_create_statement`: the three engine renamings in
source order, then the argument normalization `re.sub`. -/
def convert_cloud_create_statement (s : List Char) : List Char :=
  reSub (pyReplace (pyReplace (pyReplace s sharedR nameR) sharedM nameM)
          sharedA nameA)

/-- Non-strict key order matching `ORDER BY rank, name`. -/
def keyLe (a b : Nat × String) : Prop :=
  a.1 < b.1 ∨ (a.1 = b.1 ∧ strLtB b.2.data a.2.data = false)

/-- The fixed prefix `ENGINE = ` of the substitution text. -/
def canonHead : List Char := ['E', 'N', 'G', 'I', 'N', 'E', ' ', '=', ' ']

/-! ## Concrete environments used as witnesses and counterexamples -/

/-- A flush environment whose reads, inserts, optimizes and removals all
succeed; one batch file carrying column `a`, one unreadable file. -/
def envAllOk : FlushEnv :=
  ⟨"trades", [("trades_1.parquet", some ⟨["a"], 1⟩),
              ("trades_2.parquet", none)],
   ["a"], ["a"], true, true, true, true, fun _ => true⟩

/-- Same as `envAllOk` but the local insert raises. -/
def envLocalFail : FlushEnv :=
  ⟨"trades", [("trades_1.parquet", some ⟨["a"], 1⟩),
              ("trades_2.parquet", none)],
   ["a"], ["a"], false, true, true, true, fun _ => true⟩

/-- A flush environment whose batch columns overlap the remote table but
not the local one, so the joint reconciled column set is empty. -/
def envNoCommon : FlushEnv :=
  ⟨"trades", [("trades_1.parquet", some ⟨["b"], 1⟩)],
   ["a"], ["b"], true, true, true, true, fun _ => true⟩

/-- Same as `envAllOk` but the local `OPTIMIZE TABLE ... FINAL` raises. -/
def envOptFail : FlushEnv :=
  ⟨"trades", [("trades_1.parquet", some ⟨["a"], 1⟩),
              ("trades_2.parquet", none)],
   ["a"], ["a"], true, true, false, true, fun _ => true⟩

/-! ## Concrete sync environments -/

/-- A healthy per-table environment: exists locally, override column
present remotely, a `DateTime` column `ts`, three rows. -/
def teGood : TableEnv :=
  ⟨true, true, fun _ => true, [("ts", "DateTime")], true, [3, 7, 5], true⟩

/-- A per-table environment whose target table is empty. -/
def teEmptyTable : TableEnv :=
  ⟨true, true, fun _ => true, [("ts", "DateTime")], true, [], true⟩

/-- A per-table environment whose source table has no date/time-typed
column at all. -/
def teNoDate : TableEnv :=
  ⟨true, true, fun _ => true, [("id", "Int64"), ("val", "Float64")],
   true, [3], true⟩

/-- A per-table environment whose bootstrap (initial copy) raises. -/
def teBootFail : TableEnv :=
  ⟨false, false, fun _ => true, [("ts", "DateTime")], true, [3], true⟩

/-- A sync environment in which `create_database_if_not_exists` raises
although the remote table list is perfectly enumerable. -/
def envCreateDbFail : SyncEnv :=
  ⟨false, some [("t1", "MergeTree")], fun _ => teGood⟩

/-- A sync environment with a failing first table and a healthy second
table. -/
def envOneBadTable : SyncEnv :=
  ⟨true, some [("bad", "MergeTree"), ("good", "MergeTree")],
   fun t => if t = "bad" then teBootFail else teGood⟩

/-! ## Helper lemmas for the flush engine -/

/-- Once every guard up to the insert stage holds, `flush_prefix` is the
three-way case split on the two insert outcomes. -/
theorem flushInsertStage (env : FlushEnv)
    (h : insertStage env = true) :
    flush_prefix env =
      if env.localInsertOk then
        if env.remoteInsertOk then
          ⟨[Ev.insertLocal true, Ev.insertRemote true] ++ optimizeEvents env
             ++ removalEvents env,
           remainingAfterDelete env⟩
        else ⟨[Ev.insertLocal true, Ev.insertRemote false], env.files⟩
      else ⟨[Ev.insertLocal false], env.files⟩ := by
  unfold insertStage at h
  simp only [Bool.and_eq_true, Bool.not_eq_true'] at h
  obtain ⟨⟨⟨h1, h2⟩, h3⟩, h4⟩ := h
  unfold flush_prefix
  rw [h1, h2, h3, h4]
  simp

/-- Insert stage, local insert raises: the outer `except` returns at
once, `valid_files` is never reached. -/
theorem flushLocalFail (env : FlushEnv)
    (h : insertStage env = true) (hl : env.localInsertOk = false) :
    flush_prefix env = ⟨[Ev.insertLocal false], env.files⟩ := by
  rw [flushInsertStage env h, hl]
  simp

/-- Insert stage, local insert succeeds but the remote insert raises. -/
theorem flushRemoteFail (env : FlushEnv)
    (h : insertStage env = true) (hl : env.localInsertOk = true)
    (hr : env.remoteInsertOk = false) :
    flush_prefix env
      = ⟨[Ev.insertLocal true, Ev.insertRemote false], env.files⟩ := by
  rw [flushInsertStage env h, hl, hr]
  simp

/-- Insert stage, both inserts succeed: the optimize block runs and then
the deletion loop. -/
theorem flushSuccess (env : FlushEnv)
    (h : insertStage env = true) (hl : env.localInsertOk = true)
    (hr : env.remoteInsertOk = true) :
    flush_prefix env
      = ⟨[Ev.insertLocal true, Ev.insertRemote true] ++ optimizeEvents env
           ++ removalEvents env,
         remainingAfterDelete env⟩ := by
  rw [flushInsertStage env h, hl, hr]
  simp

/-- When every `os.remove` succeeds, the surviving files are exactly the
files that failed to deserialize. -/
theorem remainingAfterDelete_all_ok (env : FlushEnv)
    (hrm : ∀ s, env.removeOk s = true) :
    remainingAfterDelete env = env.files.filter (fun f => f.2.isNone) := by
  unfold remainingAfterDelete
  apply List.filter_congr
  intro f _
  rw [hrm f.1]
  cases f.2 <;> simp


/-! ## C1, C2, C6, C8, C9 -/

/-- C1: for every flush of a category that reaches the insert stage and
whose `os.remove` calls succeed, the staged batch files are deleted iff
every attempted destination insert succeeded: when any insert raises the
function returns with the file list untouched and no removal attempted,
and when both inserts succeed exactly the successfully read files are
deleted (the unreadable ones survive). -/
theorem c1_delete_iff_all_inserts_succeed (env : FlushEnv)
    (h : insertStage env = true) (hrm : ∀ s, env.removeOk s = true) :
    ((env.localInsertOk && env.remoteInsertOk) = false →
        ( flush_prefix env).remaining = env.files
        ∧ ∀ s b, Ev.removeFile s b ∉ ( flush_prefix env).events)
    ∧ ((env.localInsertOk && env.remoteInsertOk) = true →
        ( flush_prefix env).remaining
            = env.files.filter (fun f => f.2.isNone)
        ∧ ∀ f ∈ env.files, f.2.isSome = true →
            Ev.removeFile f.1 true ∈ ( flush_prefix env).events) := by
  cases hl : env.localInsertOk <;> cases hr : env.remoteInsertOk
  · rw [flushLocalFail env h hl]
    exact ⟨fun _ => ⟨rfl, fun s b => by simp⟩,
           fun hok => absurd hok (by simp)⟩
  · rw [flushLocalFail env h hl]
    exact ⟨fun _ => ⟨rfl, fun s b => by simp⟩,
           fun hok => absurd hok (by simp)⟩
  · rw [flushRemoteFail env h hl hr]
    exact ⟨fun _ => ⟨rfl, fun s b => by simp⟩,
           fun hok => absurd hok (by simp)⟩
  · rw [flushSuccess env h hl hr]
    refine ⟨fun hfail => absurd hfail (by simp), fun _ => ⟨?_, ?_⟩⟩
    · exact remainingAfterDelete_all_ok env hrm
    · intro f hf hsome
      refine List.mem_append.mpr (Or.inr ?_)
      have hmem : f ∈ validFiles env.files :=
        List.mem_filter.mpr ⟨hf, hsome⟩
      have hmap := List.mem_map_of_mem
        (fun g => Ev.removeFile g.1 (env.removeOk g.1)) hmem
      simp only [hrm f.1] at hmap
      exact hmap

/-- C1 witness: in the all-succeed environment the readable file is
deleted and the unreadable one is the only survivor. -/
theorem c1_witness :
    ( flush_prefix envAllOk).remaining
        = envAllOk.files.filter (fun f => f.2.isNone)
    ∧ Ev.removeFile "trades_1.parquet" true ∈ ( flush_prefix envAllOk).events := by
  have h := (c1_delete_iff_all_inserts_succeed envAllOk (by decide)
      (fun _ => rfl)).2 (by decide)
  exact ⟨h.1, h.2 ("trades_1.parquet", some ⟨["a"], 1⟩) (by decide) (by decide)⟩

/-- C2 counterexample: when the local insert raises, the remote insert is
never attempted — the two destinations are not independent failure
domains, refuting the claim as stated. -/
theorem c2_counterexample :
    ( flush_prefix envLocalFail).events = [Ev.insertLocal false]
    ∧ Ev.insertRemote true ∉ ( flush_prefix envLocalFail).events
    ∧ Ev.insertRemote false ∉ ( flush_prefix envLocalFail).events
    ∧ ( flush_prefix envLocalFail).remaining = envLocalFail.files := by
  refine ⟨by decide, by decide, by decide, by decide⟩

/-- C2 amended: the two destination inserts sit in one protected block
and run in the fixed order local-then-remote; the local insert is always
attempted once the insert stage is reached, the remote insert is
attempted exactly when the local insert succeeded (so a remote failure
cannot retract the local insert, but a local failure prevents the remote
attempt). -/
theorem c2_amended_sequential_inserts (env : FlushEnv)
    (h : insertStage env = true) :
    Ev.insertLocal env.localInsertOk ∈ ( flush_prefix env).events
    ∧ (env.localInsertOk = true →
        Ev.insertRemote env.remoteInsertOk ∈ ( flush_prefix env).events)
    ∧ (env.localInsertOk = false →
        ∀ b, Ev.insertRemote b ∉ ( flush_prefix env).events) := by
  rw [flushInsertStage env h]
  cases hl : env.localInsertOk <;> cases hr : env.remoteInsertOk <;> simp

/-- C2 amended witness: with a failing local insert the local attempt is
recorded and no remote attempt exists. -/
theorem c2_witness :
    Ev.insertLocal false ∈ ( flush_prefix envLocalFail).events
    ∧ Ev.insertRemote true ∉ ( flush_prefix envLocalFail).events
    ∧ Ev.insertRemote false ∉ ( flush_prefix envLocalFail).events := by
  have h := c2_amended_sequential_inserts envLocalFail (by decide)
  exact ⟨h.1, h.2.2 rfl true, h.2.2 rfl false⟩

/-- C6 counterexample: the reconciled set is one joint intersection over
both destinations; in `envNoCommon` the remote table alone shares column
`b` with the batch, yet because the local table does not, the whole
category flush is skipped — no insert is attempted on either destination
(the claim predicted the remote destination would still be flushed). -/
theorem c6_counterexample :
    envNoCommon.localCols.filter
        (fun c => (flushDF envNoCommon.files).cols.contains c) = []
    ∧ envNoCommon.remoteCols.filter
        (fun c => (flushDF envNoCommon.files).cols.contains c) = ["b"]
    ∧ flushCols envNoCommon = []
    ∧ ( flush_prefix envNoCommon).events = []
    ∧ ( flush_prefix envNoCommon).remaining = envNoCommon.files := by
  decide

/-- C6 amended: the reconciled column set is computed once for both
destinations together; when that joint set is empty the flush of the
category is skipped entirely — no insert is attempted on any destination,
no file is deleted, and the function returns normally (so the flush run
over the other categories continues). -/
theorem c6_amended_empty_reconciled_skips_category (env : FlushEnv)
    (h1 : env.files.isEmpty = false)
    (h2 : (loadedDfs env.files).isEmpty = false)
    (h3 : dfIsEmpty (flushDF env.files) = false)
    (h4 : (flushCols env).isEmpty = true) :
    flush_prefix env = ⟨[], env.files⟩ := by
  unfold flush_prefix
  rw [h1, h2, h3, h4]
  simp

/-- C6 amended witness. -/
theorem c6_witness : flush_prefix envNoCommon = ⟨[], envNoCommon.files⟩ :=
  c6_amended_empty_reconciled_skips_category envNoCommon (by decide)
    (by decide) (by decide) (by decide)

/-- C8: when both destination inserts succeed for a replacing-merge-tree
category and the local `OPTIMIZE TABLE ... FINAL` raises, the failure is
confined to the optimize block: the staged files are still deleted, and
the surviving file list coincides with that of any flush over the same
files in which everything succeeds. -/
theorem c8_optimize_failure_does_not_block_delete (env : FlushEnv)
    (h : insertStage env = true) (hrm : ∀ s, env.removeOk s = true)
    (hl : env.localInsertOk = true) (hr : env.remoteInsertOk = true)
    (hcat : REPLACING_MERGE_TREE_CATEGORIES.contains env.category = true)
    (hopt : env.localOptimizeOk = false) :
    Ev.optimizeLocal false ∈ ( flush_prefix env).events
    ∧ ( flush_prefix env).remaining = env.files.filter (fun f => f.2.isNone)
    ∧ ∀ env₂ : FlushEnv, insertStage env₂ = true →
        (∀ s, env₂.removeOk s = true) →
        env₂.localInsertOk = true → env₂.remoteInsertOk = true →
        env₂.files = env.files →
        ( flush_prefix env₂).remaining = ( flush_prefix env).remaining := by
  rw [flushInsertStage env h, hl, hr]
  have hrem := remainingAfterDelete_all_ok env hrm
  refine ⟨?_, by simpa using hrem, ?_⟩
  · simp only [if_true, List.mem_append]
    left
    unfold optimizeEvents
    rw [hcat, hopt]
    simp
  · intro env₂ h₂ hrm₂ hl₂ hr₂ hfiles
    rw [flushInsertStage env₂ h₂, hl₂, hr₂]
    simp only [if_true]
    rw [remainingAfterDelete_all_ok env₂ hrm₂, hfiles, hrem]

/-- C8 witness: concrete flush with failing local optimize still clears
the readable buffer file. -/
theorem c8_witness :
    Ev.optimizeLocal false ∈ ( flush_prefix envOptFail).events
    ∧ ( flush_prefix envOptFail).remaining
        = envOptFail.files.filter (fun f => f.2.isNone) := by
  have h := c8_optimize_failure_does_not_block_delete envOptFail (by decide)
    (fun _ => rfl) rfl rfl (by decide) rfl
  exact ⟨h.1, h.2.1⟩

/-- C9: a staged file that fails to deserialize is never deleted — in
every branch of the flush, a file whose read raised is still present in
the surviving file list, whatever the insert and optimize outcomes. -/
theorem c9_unreadable_file_retained (env : FlushEnv)
    (f : String × Option DF) (hf : f ∈ env.files) (hnone : f.2 = none) :
    f ∈ ( flush_prefix env).remaining := by
  unfold flush_prefix
  split_ifs <;>
    simp_all [remainingAfterDelete, List.mem_filter, hnone]

/-- C9 witness: the unreadable file survives the fully successful flush. -/
theorem c9_witness :
    ("trades_2.parquet", (none : Option DF)) ∈ ( flush_prefix envAllOk).remaining :=
  c9_unreadable_file_retained envAllOk ("trades_2.parquet", none)
    (by decide) rfl

/-! ## Helper lemmas for the sync engine -/

theorem strLtB_irrefl : ∀ x : List Char, strLtB x x = false := by
  intro x
  induction x with
  | nil => rfl
  | cons a as ih =>
    unfold strLtB
    simp [ih]

theorem strLtB_asymm : ∀ x y : List Char,
    strLtB x y = true → strLtB y x = false := by
  intro x
  induction x with
  | nil =>
    intro y h
    cases y with
    | nil => simp [strLtB] at h
    | cons b bs => rfl
  | cons a as ih =>
    intro y h
    cases y with
    | nil => simp [strLtB] at h
    | cons b bs =>
      unfold strLtB at h ⊢
      by_cases h1 : a.toNat < b.toNat
      · have h2 : ¬ b.toNat < a.toNat := by omega
        simp [h1, h2]
      · by_cases h2 : b.toNat < a.toNat
        · simp [h1, h2] at h
        · simp only [h1, h2, if_false] at h
          simp [h1, h2, ih bs h]

theorem strLtB_le_trans : ∀ x y z : List Char,
    strLtB y x = false → strLtB z y = false → strLtB z x = false := by
  intro x
  induction x with
  | nil =>
    intro y z h1 h2
    cases y with
    | nil =>
      cases z with
      | nil => rfl
      | cons c cs => rfl
    | cons b bs =>
      cases z with
      | nil => simp [strLtB] at h2
      | cons c cs => rfl
  | cons a as ih =>
    intro y z h1 h2
    cases z with
    | nil =>
      cases y with
      | nil => simp [strLtB] at h1
      | cons b bs => simp [strLtB] at h2
    | cons c cs =>
      cases y with
      | nil => simp [strLtB] at h1
      | cons b bs =>
        unfold strLtB at h1 h2 ⊢
        by_cases hba : b.toNat < a.toNat
        · simp [hba] at h1
        · by_cases hcb : c.toNat < b.toNat
          · simp [hcb] at h2
          · by_cases hab : a.toNat < b.toNat
            · have hca : ¬ c.toNat < a.toNat := by omega
              have hac : a.toNat < c.toNat := by omega
              simp [hca, hac]
            · by_cases hbc : b.toNat < c.toNat
              · have hca : ¬ c.toNat < a.toNat := by omega
                have hac : a.toNat < c.toNat := by omega
                simp [hca, hac]
              · have hca : ¬ c.toNat < a.toNat := by omega
                have hac : ¬ a.toNat < c.toNat := by omega
                simp only [hba, hab, if_false, ite_false] at h1
                simp only [hcb, hbc, if_false, ite_false] at h2
                simp [hca, hac, ih bs cs h1 h2]


theorem keyLe_refl (a : Nat × String) : keyLe a a :=
  Or.inr ⟨rfl, strLtB_irrefl _⟩

theorem keyLe_trans {a b c : Nat × String} (h1 : keyLe a b) (h2 : keyLe b c) :
    keyLe a c := by
  rcases h1 with h1 | ⟨h1, h1'⟩ <;> rcases h2 with h2 | ⟨h2, h2'⟩
  · exact Or.inl (lt_trans h1 h2)
  · exact Or.inl (h2 ▸ h1)
  · exact Or.inl (h1 ▸ h2)
  · exact Or.inr ⟨h1.trans h2, strLtB_le_trans _ _ _ h1' h2'⟩

theorem keyLtB_true_le {a b : Nat × String} (h : keyLtB a b = true) :
    keyLe a b := by
  unfold keyLtB at h
  rcases Bool.or_eq_true_iff.mp h with h' | h'
  · exact Or.inl (by exact_mod_cast of_decide_eq_true h')
  · obtain ⟨h1, h2⟩ := Bool.and_eq_true_iff.mp h'
    exact Or.inr ⟨by simpa using h1, strLtB_asymm _ _ h2⟩

theorem keyLtB_false_le {a b : Nat × String} (h : keyLtB a b = false) :
    keyLe b a := by
  unfold keyLtB at h
  obtain ⟨h1, h2⟩ := Bool.or_eq_false_iff.mp h
  have hle : b.1 ≤ a.1 := Nat.le_of_not_lt (of_decide_eq_false h1)
  rcases Nat.lt_or_ge b.1 a.1 with hlt | hge
  · exact Or.inl hlt
  · have heq : a.1 = b.1 := Nat.le_antisymm hge hle
    rcases Bool.and_eq_false_iff.mp h2 with h3 | h3
    · exact absurd (by simpa using heq) (by simpa using h3)
    · exact Or.inr ⟨heq.symm, h3⟩

theorem pickMin_mem : ∀ (rest : List (String × String)) (c : String × String),
    pickMin c rest ∈ c :: rest := by
  intro rest
  induction rest with
  | nil => intro c; exact List.mem_singleton.mpr rfl
  | cons x l ih =>
    intro c
    have : pickMin c (x :: l)
        = pickMin (if keyLtB (cursorKey x) (cursorKey c) then x else c) l := rfl
    rw [this]
    have h := ih (if keyLtB (cursorKey x) (cursorKey c) then x else c)
    rcases List.mem_cons.mp h with h' | h'
    · rw [h']
      split <;> simp
    · exact List.mem_cons_of_mem _ (List.mem_cons_of_mem _ h')

theorem pickMin_le : ∀ (rest : List (String × String)) (c p : String × String),
    p ∈ c :: rest → keyLe (cursorKey (pickMin c rest)) (cursorKey p) := by
  intro rest
  induction rest with
  | nil =>
    intro c p hp
    rcases List.mem_singleton.mp hp with rfl
    exact keyLe_refl _
  | cons x l ih =>
    intro c p hp
    have hdef : pickMin c (x :: l)
        = pickMin (if keyLtB (cursorKey x) (cursorKey c) then x else c) l := rfl
    rw [hdef]
    rcases List.mem_cons.mp hp with hpc | hp'
    · -- p = c
      rw [hpc]
      cases hxc : keyLtB (cursorKey x) (cursorKey c)
      · simp only [hxc, Bool.false_eq_true, if_false]
        exact ih c c (List.mem_cons_self _ _)
      · simp only [hxc, if_true]
        exact keyLe_trans (ih x x (List.mem_cons_self _ _))
          (keyLtB_true_le hxc)
    · rcases List.mem_cons.mp hp' with hpx | hp''
      · -- p = x
        rw [hpx]
        cases hxc : keyLtB (cursorKey x) (cursorKey c)
        · simp only [hxc, Bool.false_eq_true, if_false]
          exact keyLe_trans (ih c c (List.mem_cons_self _ _))
            (keyLtB_false_le hxc)
        · simp only [hxc, if_true]
          exact ih x x (List.mem_cons_self _ _)
      · -- p ∈ l
        cases hxc : keyLtB (cursorKey x) (cursorKey c)
        · simp only [hxc, Bool.false_eq_true, if_false]
          exact ih c p (List.mem_cons_of_mem _ hp'')
        · simp only [hxc, if_true]
          exact ih x p (List.mem_cons_of_mem _ hp'')

theorem listMax_go (l : List Nat) : ∀ (a m : Nat),
    l.foldl (fun acc x => match acc with
                          | none => some x
                          | some m => some (max m x)) (some a) = some m →
    a ≤ m ∧ (m = a ∨ m ∈ l) ∧ ∀ x ∈ l, x ≤ m := by
  induction l with
  | nil =>
    intro a m h
    simp only [List.foldl_nil, Option.some.injEq] at h
    exact ⟨h ▸ le_refl _, Or.inl h.symm, by simp⟩
  | cons x l ih =>
    intro a m h
    simp only [List.foldl_cons] at h
    obtain ⟨h1, h2, h3⟩ := ih (max a x) m h
    refine ⟨le_trans (Nat.le_max_left a x) h1, ?_, ?_⟩
    · rcases h2 with h2 | h2
      · rcases max_choice a x with hc | hc
        · exact Or.inl (h2.trans hc)
        · refine Or.inr ?_
          rw [h2, hc]
          exact List.mem_cons_self x l
      · exact Or.inr (List.mem_cons_of_mem _ h2)
    · intro y hy
      rcases List.mem_cons.mp hy with rfl | hy'
      · exact le_trans (Nat.le_max_right a y) h1
      · exact h3 y hy'

/-- The value `listMax` of a non-empty list is a member and an upper bound. -/
theorem listMax_spec {l : List Nat} {m : Nat} (h : listMax l = some m) :
    m ∈ l ∧ ∀ x ∈ l, x ≤ m := by
  cases l with
  | nil => simp [listMax] at h
  | cons x l =>
    unfold listMax at h
    simp only [List.foldl_cons] at h
    obtain ⟨h1, h2, h3⟩ := listMax_go l x m h
    refine ⟨?_, ?_⟩
    · rcases h2 with h2 | h2
      · rw [h2]; exact List.mem_cons_self _ _
      · exact List.mem_cons_of_mem _ h2
    · intro y hy
      rcases List.mem_cons.mp hy with rfl | hy'
      · exact h1
      · exact h3 y hy'


/-! ## C4, C5, C7 -/

/-- C4 counterexample: the inferred ranking is purely substring
containment with an alphabetical tiebreak, so an exact keyword match
does not beat a substring match.  With columns `atime` and `time` (both
`DateTime`, both mere rank-2 `LIKE '%time%'` hits) the code picks
`atime` alphabetically, not the exact keyword `time`; likewise a
substring hit on `time` (`xtime`) beats an exact `date`. -/
theorem c4_counterexample_substring_beats_exact :
    find_date_column [("atime", "DateTime"), ("time", "DateTime")]
        = some "atime"
    ∧ (some "atime" ≠ some "time")
    ∧ find_date_column [("date", "Date"), ("xtime", "DateTime")]
        = some "xtime"
    ∧ (some "xtime" ≠ some "date") := by
  decide

/-- C4 amended: the explicit per-table override wins whenever its column
exists at the source; otherwise (no override, or override column
missing) the cursor is the date/time-typed column minimal under the rank
(`timestamp`-containing, then `time`-containing, then `date`-containing,
then any other date/time column — all by substring containment, exact
equality conferring no extra priority) with ties broken by ascending
name; and when the source table has no date/time-typed column at all the
incremental sync for that table is skipped. -/
theorem c4_amended_cursor_resolution :
    (∀ db t te o, lookupOverride db t = some o → te.remoteHasCol o = true →
        resolveCursor db t te = some o)
    ∧ (∀ db t te o, lookupOverride db t = some o → te.remoteHasCol o = false →
        resolveCursor db t te = find_date_column te.columns)
    ∧ (∀ db t te, lookupOverride db t = none →
        resolveCursor db t te = find_date_column te.columns)
    ∧ (∀ cols : List (String × String),
        find_date_column cols = none ↔ ∀ p ∈ cols, isDateTimeCol p.2 = false)
    ∧ (∀ cols c, find_date_column cols = some c →
        (∃ ty, (c, ty) ∈ cols ∧ isDateTimeCol ty = true)
        ∧ ∀ p ∈ cols, isDateTimeCol p.2 = true →
            keyLe (cursorNameRank c, c) (cursorNameRank p.1, p.1))
    ∧ (∀ db t te, te.existsLocally = true → resolveCursor db t te = none →
        tableBody db t te = ([SEv.tableExistsLocally t, SEv.noCursor t],
          false)) := by
  refine ⟨?_, ?_, ?_, ?_, ?_, ?_⟩
  · intro db t te o ho hcol
    simp only [resolveCursor, ho]
    rw [hcol]
    simp
  · intro db t te o ho hcol
    simp only [resolveCursor, ho]
    rw [hcol]
    simp
  · intro db t te ho
    simp only [resolveCursor, ho]
  · intro cols
    constructor
    · intro h p hp
      cases hb : isDateTimeCol p.2
      · rfl
      · exfalso
        have hmem : p ∈ cols.filter (fun c => isDateTimeCol c.2) :=
          List.mem_filter.mpr ⟨hp, hb⟩
        unfold find_date_column at h
        rcases hcase : cols.filter (fun c => isDateTimeCol c.2)
          with _ | ⟨c0, rest⟩
        · rw [hcase] at hmem
          simp at hmem
        · rw [hcase] at h
          simp at h
    · intro h
      have hnil : cols.filter (fun c => isDateTimeCol c.2) = [] := by
        rw [List.filter_eq_nil_iff]
        intro p hp
        simp [h p hp]
      unfold find_date_column
      rw [hnil]
  · intro cols c h
    unfold find_date_column at h
    rcases hcase : cols.filter (fun c => isDateTimeCol c.2) with _ | ⟨c0, rest⟩
    · rw [hcase] at h; simp at h
    · rw [hcase] at h
      simp only [Option.some.injEq] at h
      have hmem : pickMin c0 rest ∈ c0 :: rest := pickMin_mem rest c0
      rw [← hcase] at hmem
      have hmemcols := List.mem_filter.mp hmem
      refine ⟨⟨(pickMin c0 rest).2, ?_, by simpa using hmemcols.2⟩, ?_⟩
      · rw [← h]
        simpa using hmemcols.1
      · intro p hp hdt
        have hpf : p ∈ c0 :: rest := by
          rw [← hcase]
          exact List.mem_filter.mpr ⟨hp, hdt⟩
        have := pickMin_le rest c0 p hpf
        unfold cursorKey at this
        rw [← h]
        exact this
  · intro db t te hex hcur
    unfold tableBody
    rw [hex, hcur]
    simp

/-- C4 amended witness: the override of `maicro_monitors.trades` is
`time` and wins; on the `atime`/`time` table the inferred cursor is the
alphabetically-first rank-2 column; a table without date/time columns
yields no cursor and the table body records the skip. -/
theorem c4_witness :
    resolveCursor "maicro_monitors" "trades" teGood = some "time"
    ∧ resolveCursor "maicro_logs" "unknown_table" teGood = some "ts"
    ∧ tableBody "maicro_logs" "plain" teNoDate
        = ([SEv.tableExistsLocally "plain", SEv.noCursor "plain"], false) := by
  refine ⟨?_, ?_, ?_⟩
  · exact c4_amended_cursor_resolution.1 "maicro_monitors" "trades" teGood
      "time" (by decide) rfl
  · exact (c4_amended_cursor_resolution.2.2.1 "maicro_logs" "unknown_table"
      teGood (by decide)).trans (by decide)
  · exact c4_amended_cursor_resolution.2.2.2.2.2 "maicro_logs" "plain"
      teNoDate rfl (by decide)

/-- C5: the watermark is the target-side `max(cursor_column)`; when the
`max()` query answers (no exception), an empty target table yields no
watermark and the incremental sync is skipped with no filtered pull,
while a non-empty table yields exactly one filtered pull whose bound is
the true maximum of the target's cursor values. -/
theorem c5_watermark_max_and_empty_skip (te : TableEnv) (t dcol : String)
    (hq : te.maxQueryOk = true) :
    (te.localCursorRows = [] →
        sync_table_incremental te t dcol
            = [SEv.maxQuery t none, SEv.skipNoLocalMax t])
    ∧ (∀ m, listMax te.localCursorRows = some m →
        sync_table_incremental te t dcol
            = [SEv.maxQuery t (some m),
               SEv.incrementalPull t dcol m te.pullOk]
        ∧ m ∈ te.localCursorRows ∧ ∀ x ∈ te.localCursorRows, x ≤ m) := by
  constructor
  · intro hrows
    unfold sync_table_incremental
    rw [hq, hrows]
    rfl
  · intro m hm
    obtain ⟨hmem, hub⟩ := listMax_spec hm
    unfold sync_table_incremental
    rw [hq, hm]
    exact ⟨rfl, hmem, hub⟩

/-- C5 witness: an empty target table produces the skip trace; a
populated one pulls with bound 7 = max {3, 7, 5}. -/
theorem c5_witness :
    sync_table_incremental teEmptyTable "t" "ts"
        = [SEv.maxQuery "t" none, SEv.skipNoLocalMax "t"]
    ∧ sync_table_incremental teGood "t" "ts"
        = [SEv.maxQuery "t" (some 7),
           SEv.incrementalPull "t" "ts" 7 true] := by
  refine ⟨(c5_watermark_max_and_empty_skip teEmptyTable "t" "ts" rfl).1 rfl, ?_⟩
  exact ((c5_watermark_max_and_empty_skip teGood "t" "ts" rfl).2 7
    (by decide)).1

/-- C7 counterexample: the ensure-database step of `sync_database` runs
outside every `try`; when it raises, the whole database sync aborts with
an escaping exception and zero tables processed, even though the remote
table list was perfectly enumerable — refuting the claim that failing to
enumerate the table list is the only whole-run abort condition. -/
theorem c7_counterexample :
    (sync_database "maicro_logs" envCreateDbFail).raised = true
    ∧ (sync_database "maicro_logs" envCreateDbFail).events = []
    ∧ envCreateDbFail.tables = some [("t1", "MergeTree")] := by
  decide

/-- C7 amended: per-table failures are isolated — the run never raises
once the database-ensure step passed and the table list was enumerated,
and its event trace is the concatenation of per-table outcomes, each a
function of that table's own environment alone (in particular incremental
failures of an existing table never escape the table body); failing to
enumerate the remote table list aborts the database's run gracefully;
and a failing ensure-database step aborts it with an escaping
exception. -/
theorem c7_amended_per_table_isolation :
    (∀ db env ts, env.createDbOk = true → env.tables = some ts → ts ≠ [] →
        (sync_database db env).raised = false
        ∧ (sync_database db env).events
            = ts.flatMap (fun p => oneTableOutcome db (env.perTable p.1) p))
    ∧ (∀ db t te, te.existsLocally = true → (tableBody db t te).2 = false)
    ∧ (∀ db env, env.createDbOk = true → env.tables = none →
        sync_database db env = ⟨[SEv.listTablesError], false⟩)
    ∧ (∀ db env, env.createDbOk = false →
        sync_database db env = ⟨[], true⟩) := by
  refine ⟨?_, ?_, ?_, ?_⟩
  · intro db env ts hdb htab hne
    unfold sync_database
    rw [hdb, htab]
    cases ts with
    | nil => exact absurd rfl hne
    | cons p ts' => exact ⟨rfl, rfl⟩
  · intro db t te hex
    unfold tableBody
    rw [hex]
    simp only [Bool.not_true, Bool.false_and]
    cases resolveCursor db t te <;> simp
  · intro db env hdb htab
    unfold sync_database
    rw [hdb, htab]
    simp
  · intro db env hdb
    unfold sync_database
    rw [hdb]
    simp

/-- C7 amended witness: with a failing bootstrap on the first table the
run still processes the second table and never raises. -/
theorem c7_witness :
    (sync_database "maicro_logs" envOneBadTable).raised = false
    ∧ (sync_database "maicro_logs" envOneBadTable).events
        = oneTableOutcome "maicro_logs" teBootFail ("bad", "MergeTree")
            ++ oneTableOutcome "maicro_logs" teGood ("good", "MergeTree") := by
  have h := c7_amended_per_table_isolation.1 "maicro_logs" envOneBadTable
    [("bad", "MergeTree"), ("good", "MergeTree")] rfl rfl (by decide)
  refine ⟨h.1, h.2.trans ?_⟩
  rfl

/-! ## C3 -/

/-- C3: `_common_insert_columns` returns exactly the columns present in
the local list, the remote list and the batch columns, as an
order-preserving (hence deterministic) sublist of the local column
order; on the spec's concrete example the result is `[a, b]` and neither
`c` nor `d` is included. -/
theorem c3_common_columns_ordered_intersection (L R D : List String) :
    (common_insert_columns L R D).Sublist L
    ∧ (∀ c, c ∈ common_insert_columns L R D ↔ c ∈ L ∧ c ∈ R ∧ c ∈ D)
    ∧ common_insert_columns ["a", "b", "c"] ["a", "b", "d"]
        ["a", "b", "c", "d"] = ["a", "b"]
    ∧ "c" ∉ common_insert_columns ["a", "b", "c"] ["a", "b", "d"]
        ["a", "b", "c", "d"]
    ∧ "d" ∉ common_insert_columns ["a", "b", "c"] ["a", "b", "d"]
        ["a", "b", "c", "d"] := by
  refine ⟨List.filter_sublist _, ?_, by decide, by decide, by decide⟩
  intro c
  unfold common_insert_columns
  rw [List.mem_filter]
  simp only [List.contains, Bool.and_eq_true, List.elem_iff]

/-! ## Lemmas on the engine-argument regex matcher -/

theorem matchLit_some : ∀ {p t r : List Char},
    matchLit p t = some r → t = p ++ r := by
  intro p
  induction p with
  | nil =>
    intro t r h
    simp only [matchLit, Option.some.injEq] at h
    simp [h]
  | cons x ps ih =>
    intro t r h
    cases t with
    | nil => simp [matchLit] at h
    | cons c cs =>
      unfold matchLit at h
      by_cases hc : c = x
      · rw [if_pos hc] at h
        rw [hc, List.cons_append, ih h]
      · rw [if_neg hc] at h
        simp at h

theorem matchLit_self : ∀ (p r : List Char), matchLit p (p ++ r) = some r := by
  intro p
  induction p with
  | nil => intro r; rfl
  | cons x ps ih =>
    intro r
    simp only [List.cons_append, matchLit, if_pos rfl]
    exact ih r

theorem ws_spec {c : Char} (h : isWS c = true) :
    c = ' ' ∨ c = '\t' ∨ c = '\n' ∨ c = '\r' ∨ c = '\x0b' ∨ c = '\x0c' := by
  unfold isWS at h
  simp at h
  tauto

theorem ws_ne_rparen {c : Char} (h : isWS c = true) : c ≠ ')' := by
  rcases ws_spec h with rfl | rfl | rfl | rfl | rfl | rfl <;> decide

theorem ws_ne_lparen {c : Char} (h : isWS c = true) : c ≠ '(' := by
  rcases ws_spec h with rfl | rfl | rfl | rfl | rfl | rfl <;> decide

/-- Greedy `\s*` consumes an all-whitespace block exactly when the next
character is not whitespace. -/
theorem dropWS_ws_append {w r : List Char} (hw : ∀ c ∈ w, isWS c = true)
    (hr : ∀ hd tl, r = hd :: tl → isWS hd = false) :
    dropWS (w ++ r) = r := by
  induction w with
  | nil =>
    cases r with
    | nil => rfl
    | cons hd tl =>
      unfold dropWS
      simp [List.dropWhile_cons, hr hd tl rfl]
  | cons a w' ih =>
    unfold dropWS at *
    simp only [List.cons_append, List.dropWhile_cons,
      hw a (List.mem_cons_self a w'), if_true]
    exact ih (fun c hc => hw c (List.mem_cons_of_mem a hc))

/-- The scan `[^)]*` then `)` consumes exactly the paren-free block. -/
theorem dropParen_append {args : List Char} (h : ∀ c ∈ args, c ≠ ')')
    (z : List Char) :
    (args ++ ')' :: z).dropWhile (fun c => c ≠ ')') = ')' :: z := by
  induction args with
  | nil => simp [List.dropWhile_cons]
  | cons a as ih =>
    simp only [List.cons_append, List.dropWhile_cons,
      decide_eq_true (h a (List.mem_cons_self a as))]
    exact ih (fun c hc => h c (List.mem_cons_of_mem a hc))

theorem matchName_some {t n r : List Char} (h : matchName t = some (n, r)) :
    (n = nameR ∨ n = nameM ∨ n = nameA) ∧ t = n ++ r := by
  unfold matchName at h
  cases hR : matchLit nameR t with
  | some r' =>
    rw [hR] at h
    simp only [Option.some.injEq, Prod.mk.injEq] at h
    obtain ⟨rfl, rfl⟩ := h
    exact ⟨Or.inl rfl, matchLit_some hR⟩
  | none =>
    rw [hR] at h
    cases hM : matchLit nameM t with
    | some r' =>
      rw [hM] at h
      simp only [Option.some.injEq, Prod.mk.injEq] at h
      obtain ⟨rfl, rfl⟩ := h
      exact ⟨Or.inr (Or.inl rfl), matchLit_some hM⟩
    | none =>
      rw [hM] at h
      cases hA : matchLit nameA t with
      | some r' =>
        rw [hA] at h
        simp only [Option.some.injEq, Prod.mk.injEq] at h
        obtain ⟨rfl, rfl⟩ := h
        exact ⟨Or.inr (Or.inr rfl), matchLit_some hA⟩
      | none => rw [hA] at h; simp at h

theorem matchLit_R_M (r : List Char) : matchLit nameR (nameM ++ r) = none := rfl

theorem matchLit_R_A (r : List Char) : matchLit nameR (nameA ++ r) = none := rfl

theorem matchLit_M_A (r : List Char) : matchLit nameM (nameA ++ r) = none := rfl

theorem matchName_self {n : List Char}
    (hn : n = nameR ∨ n = nameM ∨ n = nameA) (r : List Char) :
    matchName (n ++ r) = some (n, r) := by
  rcases hn with rfl | rfl | rfl
  · unfold matchName
    rw [matchLit_self]
  · unfold matchName
    rw [matchLit_R_M, matchLit_self]
  · unfold matchName
    rw [matchLit_R_A, matchLit_M_A, matchLit_self]

theorem name_head_not_ws {n : List Char}
    (hn : n = nameR ∨ n = nameM ∨ n = nameA) (R : List Char) :
    ∀ hd tl, n ++ R = hd :: tl → isWS hd = false := by
  rcases hn with rfl | rfl | rfl <;> intro hd tl he
  · rw [show nameR ++ R = 'R' :: (['e', 'p', 'l', 'a', 'c', 'i', 'n', 'g',
      'M', 'e', 'r', 'g', 'e', 'T', 'r', 'e', 'e'] ++ R) from rfl] at he
    injection he with h1 _
    rw [← h1]
    decide
  · rw [show nameM ++ R = 'M' :: (['e', 'r', 'g', 'e', 'T', 'r', 'e', 'e']
      ++ R) from rfl] at he
    injection he with h1 _
    rw [← h1]
    decide
  · rw [show nameA ++ R = 'A' :: (['g', 'g', 'r', 'e', 'g', 'a', 't', 'i',
      'n', 'g', 'M', 'e', 'r', 'g', 'e', 'T', 'r', 'e', 'e'] ++ R)
      from rfl] at he
    injection he with h1 _
    rw [← h1]
    decide

/-- Sufficiency: any text of the pattern's shape is matched at its head,
capturing the engine name and leaving exactly the tail. -/
theorem matchAt_of_decomp {w1 w2 w3 args n : List Char} (z : List Char)
    (hw1 : ∀ c ∈ w1, isWS c = true) (hw2 : ∀ c ∈ w2, isWS c = true)
    (hw3 : ∀ c ∈ w3, isWS c = true) (hargs : ∀ c ∈ args, c ≠ ')')
    (hn : n = nameR ∨ n = nameM ∨ n = nameA) :
    matchAt (litENGINE ++ (w1 ++ '=' :: (w2 ++ (n ++ (w3 ++ '(' ::
      (args ++ ')' :: z)))))) = some (n, z) := by
  have hhead1 : ∀ hd tl, ('=' :: (w2 ++ (n ++ (w3 ++ '(' ::
      (args ++ ')' :: z))))) = hd :: tl → isWS hd = false := by
    intro hd tl he
    injection he with h1 h2
    rw [← h1]
    decide
  have hhead3 : ∀ hd tl, ('(' :: (args ++ ')' :: z)) = hd :: tl →
      isWS hd = false := by
    intro hd tl he
    injection he with h1 h2
    rw [← h1]
    decide
  simp only [matchAt, matchLit_self, dropWS_ws_append hw1 hhead1,
    show ∀ r : List Char, matchLit ['='] ('=' :: r) = some r from fun _ => rfl,
    dropWS_ws_append hw2 (name_head_not_ws hn
      (w3 ++ '(' :: (args ++ ')' :: z))),
    matchName_self hn, dropWS_ws_append hw3 hhead3,
    show ∀ r : List Char, matchLit ['('] ('(' :: r) = some r from fun _ => rfl,
    dropParen_append hargs]

/-- Necessity: a successful match decomposes the text into the
pattern's nine components. -/
theorem matchAt_some_decomp {t n z : List Char}
    (h : matchAt t = some (n, z)) :
    ∃ w1 w2 w3 args,
      (∀ c ∈ w1, isWS c = true) ∧ (∀ c ∈ w2, isWS c = true) ∧
      (∀ c ∈ w3, isWS c = true) ∧ (∀ c ∈ args, c ≠ ')') ∧
      (n = nameR ∨ n = nameM ∨ n = nameA) ∧
      t = litENGINE ++ (w1 ++ '=' :: (w2 ++ (n ++ (w3 ++ '(' ::
        (args ++ ')' :: z))))) := by
  unfold matchAt at h
  cases h1 : matchLit litENGINE t with
  | none => rw [h1] at h; simp at h
  | some t1 =>
  simp only [h1] at h
  cases h2 : matchLit ['='] (dropWS t1) with
  | none => rw [h2] at h; simp at h
  | some t3 =>
  simp only [h2] at h
  cases h3 : matchName (dropWS t3) with
  | none => rw [h3] at h; simp at h
  | some p =>
  obtain ⟨n', t5⟩ := p
  simp only [h3] at h
  cases h4 : matchLit ['('] (dropWS t5) with
  | none => rw [h4] at h; simp at h
  | some t7 =>
  simp only [h4] at h
  cases h5 : t7.dropWhile (fun c => decide (c ≠ ')')) with
  | nil => rw [h5] at h; simp at h
  | cons c9 t9 =>
  simp only [h5] at h
  by_cases hc9 : c9 = ')'
  case neg =>
    exfalso
    cases c9eq : c9
    rw [c9eq] at h
    revert h
    split
    · rename_i heq
      injection heq with heq1 heq2
      exact fun _ => hc9 (by rw [c9eq, ← heq1])
    · exact fun h => by simp at h
  case pos =>
  rw [hc9] at h
  simp only [Option.some.injEq, Prod.mk.injEq] at h
  obtain ⟨hn', hz⟩ := h
  obtain ⟨hnames, hname_eq⟩ := matchName_some h3
  refine ⟨t1.takeWhile isWS, t3.takeWhile isWS, t5.takeWhile isWS,
    t7.takeWhile (fun c => decide (c ≠ ')')), ?_, ?_, ?_, ?_, ?_, ?_⟩
  · exact fun c hc => List.mem_takeWhile_imp hc
  · exact fun c hc => List.mem_takeWhile_imp hc
  · exact fun c hc => List.mem_takeWhile_imp hc
  · intro c hc
    have hp := List.mem_takeWhile_imp hc
    exact of_decide_eq_true hp
  · rw [← hn']; exact hnames
  · have e1 : t = litENGINE ++ t1 := matchLit_some h1
    have e2 : t1 = t1.takeWhile isWS ++ ('=' :: t3) := by
      conv_lhs => rw [← List.takeWhile_append_dropWhile isWS t1]
      rw [show List.dropWhile isWS t1 = dropWS t1 from rfl,
        matchLit_some h2]
      rfl
    have e3 : t3 = t3.takeWhile isWS ++ (n ++ t5) := by
      conv_lhs => rw [← List.takeWhile_append_dropWhile isWS t3]
      rw [show List.dropWhile isWS t3 = dropWS t3 from rfl, hname_eq, hn']
    have e4 : t5 = t5.takeWhile isWS ++ ('(' :: t7) := by
      conv_lhs => rw [← List.takeWhile_append_dropWhile isWS t5]
      rw [show List.dropWhile isWS t5 = dropWS t5 from rfl,
        matchLit_some h4]
      rfl
    have e5 : t7 = t7.takeWhile (fun c => decide (c ≠ ')'))
        ++ (')' :: z) := by
      conv_lhs => rw [← List.takeWhile_append_dropWhile
        (fun c => decide (c ≠ ')')) t7]
      rw [h5, hc9, hz]
    conv_lhs => rw [e1, e2, e3, e4, e5]

theorem matchAt_nil : matchAt ([] : List Char) = none := rfl

/-- A match consumes at least one character (in fact at least nine). -/
theorem matchAt_length {t n r : List Char} (h : matchAt t = some (n, r)) :
    r.length < t.length := by
  obtain ⟨w1, w2, w3, args, _, _, _, _, _, heq⟩ := matchAt_some_decomp h
  rw [heq]
  simp [litENGINE]
  omega

theorem subF_congr : ∀ (k1 k2 : Nat) (t : List Char),
    t.length ≤ k1 → t.length ≤ k2 → subF k1 t = subF k2 t := by
  intro k1
  induction k1 with
  | zero =>
    intro k2 t h1 h2
    have ht : t = [] := List.eq_nil_of_length_eq_zero (Nat.le_zero.mp h1)
    subst ht
    cases k2 <;> rfl
  | succ k ih =>
    intro k2 t h1 h2
    cases t with
    | nil => cases k2 <;> rfl
    | cons c cs =>
      cases k2 with
      | zero => simp at h2
      | succ k2' =>
        unfold subF
        cases hm : matchAt (c :: cs) with
        | none =>
          have hlen : cs.length ≤ k := by
            simp at h1
            omega
          have hlen2 : cs.length ≤ k2' := by
            simp at h2
            omega
          show c :: subF k cs = c :: subF k2' cs
          rw [ih k2' cs hlen hlen2]
        | some p =>
          obtain ⟨n, r⟩ := p
          have hr := matchAt_length hm
          have hlen : r.length ≤ k := by
            simp at h1 hr
            omega
          have hlen2 : r.length ≤ k2' := by
            simp at h2 hr
            omega
          show canon n ++ subF k r = canon n ++ subF k2' r
          rw [ih k2' r hlen hlen2]

theorem sub_cons_none {c : Char} {cs : List Char}
    (h : matchAt (c :: cs) = none) : reSub (c :: cs) = c :: reSub cs := by
  have e : reSub (c :: cs)
      = match matchAt (c :: cs) with
        | some (n, rest) => canon n ++ subF cs.length rest
        | none => c :: subF cs.length cs := rfl
  rw [e, h]
  rfl

theorem sub_match {t n r : List Char} (h : matchAt t = some (n, r)) :
    reSub t = canon n ++ reSub r := by
  cases t with
  | nil => rw [matchAt_nil] at h; simp at h
  | cons c cs =>
    have e : reSub (c :: cs)
        = match matchAt (c :: cs) with
          | some (n, rest) => canon n ++ subF cs.length rest
          | none => c :: subF cs.length cs := rfl
    rw [e, h]
    have hr := matchAt_length h
    have hle : r.length ≤ cs.length := by
      simp at hr
      omega
    show canon n ++ subF cs.length r = canon n ++ reSub r
    rw [subF_congr cs.length r.length r hle (le_refl _)]
    rfl

/-- The substitution text itself always matches, capturing exactly the
same name and consuming exactly itself. -/
theorem canon_matchAt {n : List Char}
    (hn : n = nameR ∨ n = nameM ∨ n = nameA) (v : List Char) :
    matchAt (canon n ++ v) = some (n, v) := by
  have hshape : canon n ++ v = litENGINE ++ ([' '] ++ '=' :: ([' ']
      ++ (n ++ ([] ++ '(' :: ([] ++ ')' :: v))))) := by
    simp [canon, litENGINE]
  rw [hshape]
  exact matchAt_of_decomp v (by intro c hc; simp at hc; rw [hc]; rfl)
    (by intro c hc; simp at hc; rw [hc]; rfl)
    (by intro c hc; simp at hc) (by intro c hc; simp at hc) hn

/-! ## Splitting lemmas for lists with a distinguished character -/

/-- Splitting at the first occurrence of a character is unique. -/
theorem first_char_split (x : Char) : ∀ {A B A' B' : List Char},
    A ++ x :: B = A' ++ x :: B' → (∀ c ∈ A, c ≠ x) → (∀ c ∈ A', c ≠ x) →
    A = A' ∧ B = B' := by
  intro A
  induction A with
  | nil =>
    intro B A' B' h hA hA'
    cases A' with
    | nil =>
      simp only [List.nil_append] at h
      injection h with h1 h2
      exact ⟨rfl, h2⟩
    | cons a' A'' =>
      simp only [List.nil_append, List.cons_append] at h
      injection h with h1 h2
      exact absurd h1.symm (hA' a' (List.mem_cons_self a' A''))
  | cons a A ih =>
    intro B A' B' h hA hA'
    cases A' with
    | nil =>
      simp only [List.cons_append, List.nil_append] at h
      injection h with h1 h2
      exact absurd h1 (hA a (List.mem_cons_self a A))
    | cons a' A'' =>
      simp only [List.cons_append] at h
      injection h with h1 h2
      obtain ⟨hA1, hB⟩ := ih h2 (fun c hc => hA c (List.mem_cons_of_mem a hc))
        (fun c hc => hA' c (List.mem_cons_of_mem a' hc))
      exact ⟨by rw [h1, hA1], hB⟩

/-- Split a list at the first occurrence of a member character. -/
theorem exists_first_split {x : Char} : ∀ {u : List Char}, x ∈ u →
    ∃ u₁ u₂, u = u₁ ++ x :: u₂ ∧ ∀ c ∈ u₁, c ≠ x := by
  intro u
  induction u with
  | nil => intro h; simp at h
  | cons c u' ih =>
    intro h
    by_cases hc : c = x
    · exact ⟨[], u', by rw [hc]; rfl, by simp⟩
    · have hx : x ∈ u' := by
        rcases List.mem_cons.mp h with h' | h'
        · exact absurd h'.symm hc
        · exact h'
      obtain ⟨u₁, u₂, he, hfree⟩ := ih hx
      refine ⟨c :: u₁, u₂, by rw [List.cons_append, ← he], ?_⟩
      intro d hd
      rcases List.mem_cons.mp hd with rfl | hd'
      · exact hc
      · exact hfree d hd'

/-- Splitting an append equality at the shorter first component. -/
theorem append_eq_split {α : Type} : ∀ {X U : List α} {Y V : List α},
    X ++ Y = U ++ V → X.length ≤ U.length →
    ∃ mid, U = X ++ mid ∧ Y = mid ++ V := by
  intro X
  induction X with
  | nil => intro U Y V h _; exact ⟨U, rfl, h⟩
  | cons x X' ih =>
    intro U Y V h hle
    cases U with
    | nil => simp at hle
    | cons z U' =>
      simp only [List.cons_append] at h
      injection h with h1 h2
      obtain ⟨mid, hm1, hm2⟩ := ih h2 (by simpa using hle)
      exact ⟨mid, by rw [List.cons_append, h1, hm1], hm2⟩

theorem append_singleton_inj {A B : List Char} {x y : Char}
    (h : A ++ [x] = B ++ [y]) : A = B ∧ x = y := by
  have hr := congrArg List.reverse h
  simp only [List.reverse_append, List.reverse_cons, List.reverse_nil,
    List.nil_append, List.singleton_append] at hr
  injection hr with h1 h2
  refine ⟨?_, h1⟩
  have := congrArg List.reverse h2
  simpa using this

theorem take_append_of_le {α : Type} : ∀ {l₁ : List α} {n : Nat}
    (l₂ : List α), n ≤ l₁.length → (l₁ ++ l₂).take n = l₁.take n := by
  intro l₁
  induction l₁ with
  | nil =>
    intro n l₂ h
    simp at h
    simp [h]
  | cons a l₁' ih =>
    intro n l₂ h
    cases n with
    | zero => rfl
    | succ n' =>
      simp only [List.cons_append, List.take_succ_cons]
      rw [ih l₂ (by simpa using h)]

/-- If `x` does not occur in `X` and `X ++ [x]` extends a list already
ending in `x`, nothing can follow. -/
theorem unique_last_char_append {X P Q : List Char} {x : Char}
    (hfree : ∀ c ∈ X, c ≠ x) (h : X ++ [x] = (P ++ [x]) ++ Q) : Q = [] := by
  by_contra hQ
  have hlen : (X ++ [x]).length = (P ++ [x]).length + Q.length := by
    rw [h]
    simp
    omega
  have hQ1 : 1 ≤ Q.length := by
    cases Q with
    | nil => exact absurd rfl hQ
    | cons q qs => simp
  have hle : P.length + 1 ≤ X.length := by
    simp at hlen
    omega
  have htake : X.take (P.length + 1) = P ++ [x] := by
    have h1 : (X ++ [x]).take (P.length + 1) = X.take (P.length + 1) :=
      take_append_of_le [x] hle
    have h2 : ((P ++ [x]) ++ Q).take (P.length + 1) = P ++ [x] :=
      List.take_left' (by simp)
    rw [← h1, h, h2]
  have hmem : x ∈ X := by
    refine List.take_subset (P.length + 1) X ?_
    rw [htake]
    simp
  exact hfree x hmem rfl


theorem name_no_rparen {n : List Char}
    (hn : n = nameR ∨ n = nameM ∨ n = nameA) : ∀ c ∈ n, c ≠ ')' := by
  rcases hn with rfl | rfl | rfl <;> decide

theorem name_no_lparen {n : List Char}
    (hn : n = nameR ∨ n = nameM ∨ n = nameA) : ∀ c ∈ n, c ≠ '(' := by
  rcases hn with rfl | rfl | rfl <;> decide

theorem litENGINE_no_rparen : ∀ c ∈ litENGINE, c ≠ ')' := by decide

theorem canonHead_no_rparen : ∀ c ∈ canonHead, c ≠ ')' := by decide

theorem canonHead_no_lparen : ∀ c ∈ canonHead, c ≠ '(' := by decide

theorem name_snoc {n : List Char}
    (hn : n = nameR ∨ n = nameM ∨ n = nameA) :
    ∃ n₀, n = n₀ ++ ['e'] := by
  rcases hn with rfl | rfl | rfl
  · exact ⟨['R', 'e', 'p', 'l', 'a', 'c', 'i', 'n', 'g',
      'M', 'e', 'r', 'g', 'e', 'T', 'r', 'e'], rfl⟩
  · exact ⟨['M', 'e', 'r', 'g', 'e', 'T', 'r', 'e'], rfl⟩
  · exact ⟨['A', 'g', 'g', 'r', 'e', 'g', 'a', 't', 'i', 'n', 'g',
      'M', 'e', 'r', 'g', 'e', 'T', 'r', 'e'], rfl⟩

theorem revRM : nameR.reverse
    = nameM.reverse ++ ['g', 'n', 'i', 'c', 'a', 'l', 'p', 'e', 'R'] := by
  decide

theorem revAM : nameA.reverse
    = nameM.reverse ++ ['g', 'n', 'i', 't', 'a', 'g', 'e', 'r', 'g', 'g', 'A']
    := by decide

theorem revR12 : nameR.reverse
    = ['e', 'e', 'r', 'T', 'e', 'g', 'r', 'e', 'M', 'g', 'n', 'i']
      ++ 'c' :: ['a', 'l', 'p', 'e', 'R'] := by decide

theorem revA12 : nameA.reverse
    = ['e', 'e', 'r', 'T', 'e', 'g', 'r', 'e', 'M', 'g', 'n', 'i']
      ++ 't' :: ['a', 'g', 'e', 'r', 'g', 'g', 'A'] := by decide

/-- The reversed tail of a match prefix starts with `=` or a whitespace
character, never with anything else. -/
theorem sr_head_clash {w1' w2' T : List Char} {g : Char}
    (hw2' : ∀ c ∈ w2', isWS c = true) (hg : isWS g = false) (hgne : g ≠ '=')
    (h : w2'.reverse ++ ('=' :: (w1'.reverse ++ litENGINE.reverse))
      = g :: T) : False := by
  cases hm2 : w2'.reverse with
  | nil =>
    rw [hm2] at h
    simp only [List.nil_append] at h
    injection h with h1 h2
    exact hgne h1.symm
  | cons a as =>
    rw [hm2] at h
    simp only [List.cons_append] at h
    injection h with h1 h2
    have ha' : a ∈ w2'.reverse := by
      rw [hm2]
      exact List.mem_cons_self _ _
    have hws := hw2' a (List.mem_reverse.mp ha')
    rw [h1] at hws
    rw [hg] at hws
    exact Bool.noConfusion hws

/-- The diagonal clash: the whitespace/`=` tail of a reversed match
prefix can never spell out ` = ENGINE` followed by a non-empty list. -/
theorem diag_case {w1' w2' u : List Char}
    (hw1' : ∀ c ∈ w1', isWS c = true) (hw2' : ∀ c ∈ w2', isWS c = true)
    (hu : u ≠ [])
    (h : w2'.reverse ++ ('=' :: (w1'.reverse ++ litENGINE.reverse))
      = canonHead.reverse ++ u.reverse) : False := by
  rw [show canonHead.reverse ++ u.reverse = ' ' :: '=' :: ' ' :: 'E' :: 'N'
    :: 'I' :: 'G' :: 'N' :: 'E' :: u.reverse from rfl] at h
  cases hm2 : w2'.reverse with
  | nil =>
    rw [hm2] at h
    simp only [List.nil_append] at h
    injection h with h1 h2
    exact absurd h1 (by decide)
  | cons a as =>
    rw [hm2] at h
    simp only [List.cons_append] at h
    injection h with h1 h2
    cases has : as with
    | cons b bs =>
      rw [has] at h2
      simp only [List.cons_append] at h2
      injection h2 with h3 h4
      have hb' : b ∈ w2'.reverse := by
        rw [hm2, has]
        exact List.mem_cons_of_mem _ (List.mem_cons_self _ _)
      have hws := hw2' b (List.mem_reverse.mp hb')
      rw [h3] at hws
      exact absurd hws (by decide)
    | nil =>
      rw [has] at h2
      simp only [List.nil_append] at h2
      injection h2 with h3 h4
      cases hm1 : w1'.reverse with
      | nil =>
        rw [hm1] at h4
        simp only [List.nil_append] at h4
        rw [show litENGINE.reverse = ['E', 'N', 'I', 'G', 'N', 'E']
          from rfl] at h4
        injection h4 with h5 h6
        exact absurd h5 (by decide)
      | cons b bs =>
        rw [hm1] at h4
        simp only [List.cons_append] at h4
        injection h4 with h5 h6
        cases hbs : bs with
        | nil =>
          rw [hbs] at h6
          simp only [List.nil_append] at h6
          rw [show litENGINE.reverse = ['E', 'N', 'I', 'G', 'N', 'E']
            from rfl] at h6
          simp only [List.cons.injEq] at h6
          have hurev : u.reverse = [] := by tauto
          exact hu (by simpa using congrArg List.reverse hurev)
        | cons d ds =>
          rw [hbs] at h6
          simp only [List.cons_append] at h6
          injection h6 with h7 h8
          have hd' : d ∈ w1'.reverse := by
            rw [hm1, hbs]
            exact List.mem_cons_of_mem _ (List.mem_cons_self _ _)
          have hws := hw1' d (List.mem_reverse.mp hd')
          rw [h7] at hws
          exact absurd hws (by decide)

/-- Core transfer lemma for idempotence: if the pattern fails at the
head of `u ++ cs` while `cs` itself starts with a match capturing `n`,
then the pattern also fails at the head of `u` followed by the
substitution text `canon n` and any continuation. -/
theorem matchAt_none_transfer {u cs r n : List Char} (hu : u ≠ [])
    (hmatch : matchAt cs = some (n, r)) (v : List Char)
    (hnone : matchAt (u ++ cs) = none) :
    matchAt (u ++ (canon n ++ v)) = none := by
  cases hz : matchAt (u ++ (canon n ++ v)) with
  | none => rfl
  | some p =>
  exfalso
  obtain ⟨n', z⟩ := p
  obtain ⟨w1', w2', w3', args', hw1', hw2', hw3', hargs', hn', hWeq⟩ :=
    matchAt_some_decomp hz
  obtain ⟨w1, w2, w3, args, hw1, hw2, hw3, hargs, hnm, hcseq⟩ :=
    matchAt_some_decomp hmatch
  have hD0np : ∀ c ∈ litENGINE ++ (w1 ++ '=' :: (w2 ++ (n
      ++ (w3 ++ '(' :: args)))), c ≠ ')' := by
    intro c hc
    simp only [List.mem_append, List.mem_cons] at hc
    rcases hc with hc | hc | hc | hc | hc | hc | hc | hc
    · exact litENGINE_no_rparen c hc
    · exact ws_ne_rparen (hw1 c hc)
    · rw [hc]; decide
    · exact ws_ne_rparen (hw2 c hc)
    · exact name_no_rparen hnm c hc
    · exact ws_ne_rparen (hw3 c hc)
    · rw [hc]; decide
    · exact hargs c hc
  have hM0np : ∀ c ∈ litENGINE ++ (w1' ++ '=' :: (w2' ++ (n'
      ++ (w3' ++ '(' :: args')))), c ≠ ')' := by
    intro c hc
    simp only [List.mem_append, List.mem_cons] at hc
    rcases hc with hc | hc | hc | hc | hc | hc | hc | hc
    · exact litENGINE_no_rparen c hc
    · exact ws_ne_rparen (hw1' c hc)
    · rw [hc]; decide
    · exact ws_ne_rparen (hw2' c hc)
    · exact name_no_rparen hn' c hc
    · exact ws_ne_rparen (hw3' c hc)
    · rw [hc]; decide
    · exact hargs' c hc
  have hW : u ++ (canon n ++ v) = (litENGINE ++ (w1' ++ '=' :: (w2'
      ++ (n' ++ (w3' ++ '(' :: args'))))) ++ ')' :: z := by
    rw [hWeq]
    simp [List.append_assoc]
  by_cases hpu : ')' ∈ u
  · -- the match of the substituted text closes inside `u`
    obtain ⟨u₁, u₂, hu12, hu₁free⟩ := exists_first_split hpu
    have hW2 : u ++ (canon n ++ v) = u₁ ++ ')' :: (u₂ ++ (canon n ++ v)) := by
      rw [hu12]
      simp [List.append_assoc]
    obtain ⟨hA, hB⟩ := first_char_split ')' (hW2.symm.trans hW) hu₁free hM0np
    have hshape : u ++ cs = litENGINE ++ (w1' ++ '=' :: (w2' ++ (n'
        ++ (w3' ++ '(' :: (args' ++ ')' :: (u₂ ++ cs)))))) := by
      rw [hu12, hA]
      simp [List.append_assoc]
    have hcontra := matchAt_of_decomp (u₂ ++ cs) hw1' hw2' hw3' hargs' hn'
    rw [← hshape] at hcontra
    rw [hcontra] at hnone
    simp at hnone
  · -- no `)` in `u`: the match closes exactly at the canon block's `)`
    have hufree : ∀ c ∈ u, c ≠ ')' := fun c hc he => hpu (he ▸ hc)
    have hW3 : u ++ (canon n ++ v)
        = (u ++ (canonHead ++ (n ++ ['(']))) ++ ')' :: v := by
      simp [canon, canonHead, List.append_assoc]
    have hKnp : ∀ c ∈ u ++ (canonHead ++ (n ++ ['('])), c ≠ ')' := by
      intro c hc
      simp only [List.mem_append, List.mem_cons] at hc
      rcases hc with hc | hc | hc | hc | hc
      · exact hufree c hc
      · exact canonHead_no_rparen c hc
      · exact name_no_rparen hnm c hc
      · rw [hc]; decide
      · exact absurd hc (List.not_mem_nil c)
    obtain ⟨hA, hB⟩ := first_char_split ')' (hW3.symm.trans hW) hKnp hM0np
    have hre : litENGINE ++ (w1' ++ '=' :: (w2' ++ (n'
        ++ (w3' ++ '(' :: args'))))
        = (litENGINE ++ (w1' ++ '=' :: (w2' ++ (n' ++ (w3' ++ ['('])))))
          ++ args' := by
      simp [List.append_assoc]
    have hMP : (litENGINE ++ (w1' ++ '=' :: (w2' ++ (n'
        ++ (w3' ++ ['(']))))) ++ args'
        = u ++ (canonHead ++ (n ++ ['('])) := by
      rw [← hre]
      exact hA.symm
    by_cases hlen : (litENGINE ++ (w1' ++ '=' :: (w2' ++ (n'
        ++ (w3' ++ ['(']))))).length ≤ u.length
    · -- the structural `(` of the match lies inside `u`
      obtain ⟨mid, hmid1, hmid2⟩ := append_eq_split hMP hlen
      have hmidfree : ∀ c ∈ mid, c ≠ ')' := by
        intro c hc
        refine hufree c ?_
        rw [hmid1]
        exact List.mem_append.mpr (Or.inr hc)
      have hshape : u ++ cs = litENGINE ++ (w1' ++ '=' :: (w2' ++ (n'
          ++ (w3' ++ '(' :: ((mid ++ (litENGINE ++ (w1 ++ '=' :: (w2
          ++ (n ++ (w3 ++ '(' :: args)))))) ++ ')' :: r))))) := by
        rw [hmid1, hcseq]
        simp [List.append_assoc]
      have hargs2 : ∀ c ∈ mid ++ (litENGINE ++ (w1 ++ '=' :: (w2
          ++ (n ++ (w3 ++ '(' :: args))))), c ≠ ')' := by
        intro c hc
        rcases List.mem_append.mp hc with hc | hc
        · exact hmidfree c hc
        · exact hD0np c hc
      have hcontra := matchAt_of_decomp r hw1' hw2' hw3' hargs2 hn'
      rw [← hshape] at hcontra
      rw [hcontra] at hnone
      simp at hnone
    · -- the structural `(` of the match is the canon block's `(`
      obtain ⟨mid, hmid1, hmid2⟩ := append_eq_split hMP.symm
        (Nat.le_of_lt (Nat.lt_of_not_le hlen))
      rcases List.eq_nil_or_concat mid with rfl | ⟨mid₀, lc, hconc⟩
      · rw [List.append_nil] at hmid1
        exact hlen (le_of_eq (congrArg List.length hmid1))
      · rw [List.concat_eq_append] at hconc
        have hpre : (litENGINE ++ (w1' ++ '=' :: (w2' ++ (n' ++ w3'))))
            ++ ['('] = (u ++ mid₀) ++ [lc] := by
          rw [hconc] at hmid1
          calc (litENGINE ++ (w1' ++ '=' :: (w2' ++ (n' ++ w3')))) ++ ['(']
              = litENGINE ++ (w1' ++ '=' :: (w2' ++ (n'
                ++ (w3' ++ ['('])))) := by simp [List.append_assoc]
            _ = u ++ (mid₀ ++ [lc]) := hmid1
            _ = (u ++ mid₀) ++ [lc] := by simp [List.append_assoc]
        obtain ⟨hpre0, hlc⟩ := append_singleton_inj hpre
        have hKeq : (canonHead ++ n) ++ ['('] = (mid₀ ++ ['(']) ++ args' := by
          rw [hconc, ← hlc] at hmid2
          rw [← hmid2]
          simp [List.append_assoc]
        have hCNfree : ∀ c ∈ canonHead ++ n, c ≠ '(' := by
          intro c hc
          rcases List.mem_append.mp hc with hc | hc
          · exact canonHead_no_lparen c hc
          · exact name_no_lparen hnm c hc
        have hargsnil : args' = [] := unique_last_char_append hCNfree hKeq
        have hmidK : mid = canonHead ++ (n ++ ['(']) := by
          rw [hargsnil, List.append_nil] at hmid2
          exact hmid2.symm
        have hfull : litENGINE ++ (w1' ++ '=' :: (w2' ++ (n'
            ++ (w3' ++ ['(']))))
            = u ++ (canonHead ++ (n ++ ['('])) := by
          rw [hmid1, hmidK]
        have hstrip : (litENGINE ++ (w1' ++ '=' :: (w2' ++ (n' ++ w3'))))
            ++ ['('] = ((u ++ canonHead) ++ n) ++ ['('] := by
          calc (litENGINE ++ (w1' ++ '=' :: (w2' ++ (n' ++ w3')))) ++ ['(']
              = litENGINE ++ (w1' ++ '=' :: (w2' ++ (n'
                ++ (w3' ++ ['('])))) := by simp [List.append_assoc]
            _ = u ++ (canonHead ++ (n ++ ['('])) := hfull
            _ = ((u ++ canonHead) ++ n) ++ ['('] := by
                simp [List.append_assoc]
        obtain ⟨hbody, _⟩ := append_singleton_inj hstrip
        rcases List.eq_nil_or_concat w3' with hw3nil | ⟨w30, lw, hw3c⟩
        · -- w3' = []: the name-against-name comparison
          rw [hw3nil, List.append_nil] at hbody
          have hrev : n'.reverse ++ (w2'.reverse ++ ('=' :: (w1'.reverse
              ++ litENGINE.reverse)))
              = n.reverse ++ (canonHead.reverse ++ u.reverse) := by
            have hr0 := congrArg List.reverse hbody
            simpa [List.append_assoc] using hr0
          rcases hnm with rfl | rfl | rfl <;> rcases hn' with rfl | rfl | rfl
          · exact diag_case hw1' hw2' hu (List.append_cancel_left hrev)
          · -- n = nameR, n' = nameM
            rw [revRM] at hrev
            have hrev2 : nameM.reverse ++ (w2'.reverse ++ ('='
                :: (w1'.reverse ++ litENGINE.reverse)))
                = nameM.reverse ++ (['g', 'n', 'i', 'c', 'a', 'l', 'p',
                  'e', 'R'] ++ (canonHead.reverse ++ u.reverse)) := by
              simpa [List.append_assoc] using hrev
            have h2 := List.append_cancel_left hrev2
            exact sr_head_clash hw2' (by decide) (by decide) h2
          · -- n = nameR, n' = nameA
            rw [revR12, revA12] at hrev
            have hrev2 : (['e', 'e', 'r', 'T', 'e', 'g', 'r', 'e', 'M',
                'g', 'n', 'i'] : List Char) ++ ('t' :: (['a', 'g', 'e',
                'r', 'g', 'g', 'A'] ++ (w2'.reverse ++ ('=' :: (w1'.reverse
                ++ litENGINE.reverse)))))
                = ['e', 'e', 'r', 'T', 'e', 'g', 'r', 'e', 'M', 'g', 'n',
                  'i'] ++ ('c' :: (['a', 'l', 'p', 'e', 'R']
                  ++ (canonHead.reverse ++ u.reverse))) := by
              simpa [List.append_assoc] using hrev
            have h2 := List.append_cancel_left hrev2
            injection h2 with h3 h4
            exact absurd h3 (by decide)
          · -- n = nameM, n' = nameR
            rw [revRM] at hrev
            have hrev2 : nameM.reverse ++ (['g', 'n', 'i', 'c', 'a', 'l',
                'p', 'e', 'R'] ++ (w2'.reverse ++ ('=' :: (w1'.reverse
                ++ litENGINE.reverse))))
                = nameM.reverse ++ (canonHead.reverse ++ u.reverse) := by
              simpa [List.append_assoc] using hrev
            have h2 := List.append_cancel_left hrev2
            rw [show canonHead.reverse ++ u.reverse = ' ' :: '=' :: ' '
              :: 'E' :: 'N' :: 'I' :: 'G' :: 'N' :: 'E' :: u.reverse
              from rfl] at h2
            rw [show (['g', 'n', 'i', 'c', 'a', 'l', 'p', 'e', 'R']
              : List Char) ++ (w2'.reverse ++ ('=' :: (w1'.reverse
              ++ litENGINE.reverse))) = 'g' :: (['n', 'i', 'c', 'a', 'l',
              'p', 'e', 'R'] ++ (w2'.reverse ++ ('=' :: (w1'.reverse
              ++ litENGINE.reverse)))) from rfl] at h2
            injection h2 with h3 h4
            exact absurd h3 (by decide)
          · exact diag_case hw1' hw2' hu (List.append_cancel_left hrev)
          · -- n = nameM, n' = nameA
            rw [revAM] at hrev
            have hrev2 : nameM.reverse ++ (['g', 'n', 'i', 't', 'a', 'g',
                'e', 'r', 'g', 'g', 'A'] ++ (w2'.reverse ++ ('='
                :: (w1'.reverse ++ litENGINE.reverse))))
                = nameM.reverse ++ (canonHead.reverse ++ u.reverse) := by
              simpa [List.append_assoc] using hrev
            have h2 := List.append_cancel_left hrev2
            rw [show canonHead.reverse ++ u.reverse = ' ' :: '=' :: ' '
              :: 'E' :: 'N' :: 'I' :: 'G' :: 'N' :: 'E' :: u.reverse
              from rfl] at h2
            rw [show (['g', 'n', 'i', 't', 'a', 'g', 'e', 'r', 'g', 'g',
              'A'] : List Char) ++ (w2'.reverse ++ ('=' :: (w1'.reverse
              ++ litENGINE.reverse))) = 'g' :: (['n', 'i', 't', 'a', 'g',
              'e', 'r', 'g', 'g', 'A'] ++ (w2'.reverse ++ ('='
              :: (w1'.reverse ++ litENGINE.reverse)))) from rfl] at h2
            injection h2 with h3 h4
            exact absurd h3 (by decide)
          · -- n = nameA, n' = nameR
            rw [revR12, revA12] at hrev
            have hrev2 : (['e', 'e', 'r', 'T', 'e', 'g', 'r', 'e', 'M',
                'g', 'n', 'i'] : List Char) ++ ('c' :: (['a', 'l', 'p',
                'e', 'R'] ++ (w2'.reverse ++ ('=' :: (w1'.reverse
                ++ litENGINE.reverse)))))
                = ['e', 'e', 'r', 'T', 'e', 'g', 'r', 'e', 'M', 'g', 'n',
                  'i'] ++ ('t' :: (['a', 'g', 'e', 'r', 'g', 'g', 'A']
                  ++ (canonHead.reverse ++ u.reverse))) := by
              simpa [List.append_assoc] using hrev
            have h2 := List.append_cancel_left hrev2
            injection h2 with h3 h4
            exact absurd h3 (by decide)
          · -- n = nameA, n' = nameM
            rw [revAM] at hrev
            have hrev2 : nameM.reverse ++ (w2'.reverse ++ ('='
                :: (w1'.reverse ++ litENGINE.reverse)))
                = nameM.reverse ++ (['g', 'n', 'i', 't', 'a', 'g', 'e',
                  'r', 'g', 'g', 'A'] ++ (canonHead.reverse
                  ++ u.reverse)) := by
              simpa [List.append_assoc] using hrev
            have h2 := List.append_cancel_left hrev2
            exact sr_head_clash hw2' (by decide) (by decide) h2
          · exact diag_case hw1' hw2' hu (List.append_cancel_left hrev)
        · -- w3' non-empty: its last character collides with the name's
          -- final letter `e`, which is not whitespace
          rw [List.concat_eq_append] at hw3c
          obtain ⟨n₀, hn₀⟩ := name_snoc hnm
          have hsn : (litENGINE ++ (w1' ++ '=' :: (w2' ++ (n' ++ w30))))
              ++ [lw] = ((u ++ canonHead) ++ n₀) ++ ['e'] := by
            rw [hw3c, hn₀] at hbody
            calc (litENGINE ++ (w1' ++ '=' :: (w2' ++ (n' ++ w30)))) ++ [lw]
                = litENGINE ++ (w1' ++ '=' :: (w2' ++ (n'
                  ++ (w30 ++ [lw])))) := by simp [List.append_assoc]
              _ = (u ++ canonHead) ++ (n₀ ++ ['e']) := hbody
              _ = ((u ++ canonHead) ++ n₀) ++ ['e'] := by
                  simp [List.append_assoc]
          obtain ⟨_, hlw⟩ := append_singleton_inj hsn
          have hlw' : lw ∈ w3' := by
            rw [hw3c]
            exact List.mem_append.mpr (Or.inr (List.mem_singleton.mpr rfl))
          have hws := hw3' lw hlw'
          rw [hlw] at hws
          exact absurd hws (by decide)

/-- A failed match at the head survives substitution of the tail. -/
theorem matchAt_none_sub : ∀ (k : Nat) (cs : List Char), cs.length ≤ k →
    ∀ u, u ≠ [] → matchAt (u ++ cs) = none →
    matchAt (u ++ reSub cs) = none := by
  intro k
  induction k with
  | zero =>
    intro cs hlen u hu hnone
    have hcs : cs = [] := List.eq_nil_of_length_eq_zero (Nat.le_zero.mp hlen)
    subst hcs
    exact hnone
  | succ k ih =>
    intro cs hlen u hu hnone
    cases cs with
    | nil => exact hnone
    | cons c cs' =>
      cases hm : matchAt (c :: cs') with
      | none =>
        rw [sub_cons_none hm]
        have hassoc : u ++ c :: reSub cs' = (u ++ [c]) ++ reSub cs' := by
          simp
        rw [hassoc]
        refine ih cs' (by simpa using hlen) (u ++ [c]) (by simp) ?_
        have hassoc2 : (u ++ [c]) ++ cs' = u ++ c :: cs' := by simp
        rw [hassoc2]
        exact hnone
      | some p =>
        obtain ⟨n, r⟩ := p
        rw [sub_match hm]
        exact matchAt_none_transfer hu hm (reSub r) hnone

theorem reSub_idem_aux : ∀ (k : Nat) (t : List Char), t.length ≤ k →
    reSub (reSub t) = reSub t := by
  intro k
  induction k with
  | zero =>
    intro t hlen
    have ht : t = [] := List.eq_nil_of_length_eq_zero (Nat.le_zero.mp hlen)
    subst ht
    rfl
  | succ k ih =>
    intro t hlen
    cases t with
    | nil => rfl
    | cons c cs =>
      cases hm : matchAt (c :: cs) with
      | none =>
        rw [sub_cons_none hm]
        have hnone2 : matchAt ([c] ++ reSub cs) = none := by
          refine matchAt_none_sub k cs (by simpa using hlen) [c]
            (by simp) ?_
          exact hm
        have hnone3 : matchAt (c :: reSub cs) = none := hnone2
        rw [sub_cons_none hnone3, ih cs (by simpa using hlen)]
      | some p =>
        obtain ⟨n, r⟩ := p
        have hnames : n = nameR ∨ n = nameM ∨ n = nameA := by
          obtain ⟨_, _, _, _, _, _, _, _, hn, _⟩ := matchAt_some_decomp hm
          exact hn
        have hrlen : r.length ≤ k := by
          have := matchAt_length hm
          simp at this hlen
          omega
        rw [sub_match hm, sub_match (canon_matchAt hnames (reSub r)),
          ih r hrlen]

/-- The engine-argument normalization `re.sub` is idempotent. -/
theorem reSub_idem (t : List Char) : reSub (reSub t) = reSub t :=
  reSub_idem_aux t.length t (le_refl _)

/-- Python `str.replace` is the identity when the pattern does not occur. -/
theorem repF_id : ∀ (k : Nat) (t pat rep : List Char),
    occurs pat t = false → repF k pat rep t = t := by
  intro k
  induction k with
  | zero => intro t pat rep _; rfl
  | succ k ih =>
    intro t pat rep hocc
    cases t with
    | nil => rfl
    | cons c cs =>
      unfold occurs at hocc
      obtain ⟨hpre, hocc'⟩ := Bool.or_eq_false_iff.mp hocc
      unfold repF
      rw [hpre]
      simp only [Bool.false_eq_true, if_false]
      rw [ih cs pat rep hocc']

theorem pyReplace_id {t pat rep : List Char} (h : occurs pat t = false) :
    pyReplace t pat rep = t :=
  repF_id t.length t pat rep h

/-! ## C10 -/

/-- C10 counterexample: `convert_cloud_create_statement` is not
idempotent.  On `"SharedSharedMergeTree"` the first pass rewrites the
inner occurrence of `SharedMergeTree`, and the leftover `Shared` prefix
recombines with the replacement into a fresh `SharedMergeTree`, which a
second pass rewrites again. -/
theorem c10_counterexample :
    convert_cloud_create_statement (convert_cloud_create_statement
        "SharedSharedMergeTree".data)
      ≠ convert_cloud_create_statement "SharedSharedMergeTree".data := by
  decide

/-- C10 amended: the function is idempotent on every input whose first
pass exhausts the Shared-engine renamings — i.e. whenever its output
contains no occurrence of `SharedReplacingMergeTree`, `SharedMergeTree`
or `SharedAggregatingMergeTree`; in particular the parenthesized
engine-argument normalization alone is always stable under
re-application (`reSub_idem`).  In general a replacement can recreate a
Shared engine name out of the surrounding text and idempotence fails. -/
theorem c10_amended_idempotent_without_shared_names (s : List Char)
    (h1 : occurs sharedR (convert_cloud_create_statement s) = false)
    (h2 : occurs sharedM (convert_cloud_create_statement s) = false)
    (h3 : occurs sharedA (convert_cloud_create_statement s) = false) :
    convert_cloud_create_statement (convert_cloud_create_statement s)
      = convert_cloud_create_statement s := by
  have e : convert_cloud_create_statement (convert_cloud_create_statement s)
      = reSub (pyReplace (pyReplace (pyReplace
          (convert_cloud_create_statement s) sharedR nameR)
          sharedM nameM) sharedA nameA) := rfl
  rw [e, pyReplace_id h1, pyReplace_id h2, pyReplace_id h3]
  show reSub (reSub (pyReplace (pyReplace (pyReplace s sharedR nameR)
    sharedM nameM) sharedA nameA)) = convert_cloud_create_statement s
  rw [reSub_idem]
  rfl

/-- C10 amended witness: a realistic cloud DDL statement is converted
once, after which a second conversion changes nothing. -/
theorem c10_witness :
    occurs sharedM (convert_cloud_create_statement
        "CREATE TABLE t (x Int64) ENGINE = SharedMergeTree(a, b) ORDER BY x".data)
      = false
    ∧ convert_cloud_create_statement (convert_cloud_create_statement
        "CREATE TABLE t (x Int64) ENGINE = SharedMergeTree(a, b) ORDER BY x".data)
      = convert_cloud_create_statement
        "CREATE TABLE t (x Int64) ENGINE = SharedMergeTree(a, b) ORDER BY x".data
    := by
  refine ⟨by decide, ?_⟩
  exact c10_amended_idempotent_without_shared_names _ (by decide) (by decide)
    (by decide)

end MaicroMonitors
